import Mathlib

/-!
Verification of the `orderbook` Go package (src/orderbook/orderbook.go)
against its natural-language specification.

The Go code manipulates heap objects through pointers (orders form a
linked queue via `next`, limits are shared between a price-indexed map
and a sorted slice, and `Init` inserts one and the same limit into both
sides).  The embedding therefore models the heap explicitly: orders and
limits live in association lists keyed by allocation addresses (`Nat`),
and every pointer field (`next`, `front`, `rear`, the entries of the
side slices and price maps) is an address.  `float64` prices and
quantities are modelled as exact rationals (`Rat`); the arithmetic used
by the code is only +, -, /2 and comparisons.  `uuid.New()` is modelled
by a fresh-id counter and `time.Now().UnixNano()` by a monotone clock.
Market-order loops are given explicit fuel computed from the state; the
fuel strictly exceeds the number of possible iterations for the heaps
the code can actually build, and exhaustion is reported like a Go panic.
-/

unseal Rat.add Rat.sub Rat.mul Rat.inv

namespace OB

/-- Association-list lookup (models reading a Go map or the heap). -/
def alookup {κ β : Type} [DecidableEq κ] : List (κ × β) → κ → Option β
  | [], _ => none
  | (k0, v0) :: rest, k => if k0 = k then some v0 else alookup rest k

/-- Association-list update: replaces the binding of `k` in place, or
appends a new binding (models writing to a Go map or heap cell). -/
def aupdate {κ β : Type} [DecidableEq κ] : List (κ × β) → κ → β → List (κ × β)
  | [], k, v => [(k, v)]
  | (k0, v0) :: rest, k, v =>
    if k0 = k then (k, v) :: rest else (k0, v0) :: aupdate rest k v

/-- Association-list deletion of every binding of `k` (models Go `delete`). -/
def aerase {κ β : Type} [DecidableEq κ] : List (κ × β) → κ → List (κ × β)
  | [], _ => []
  | (k0, v0) :: rest, k =>
    if k0 = k then aerase rest k else (k0, v0) :: aerase rest k

/-- Go `type Order struct`: a unique id, a remaining quantity, a creation
timestamp, and the `next` pointer of the intrusive queue. -/
structure Order where
  id : Nat
  qty : Rat
  timestamp : Nat
  next : Option Nat
deriving DecidableEq, Repr

/-- Go `type Limit struct` together with its uniquely-owned `OrderQueue`
(`front`/`rear` are the queue fields; the queue is allocated fresh with
its limit by `newLimit` and never shared between limits, so it is
inlined here). -/
structure Limit where
  Price : Rat
  Volume : Rat
  front : Option Nat
  rear : Option Nat
deriving DecidableEq, Repr

/-- The heap plus the allocators: orders and limits keyed by address,
a fresh-address counter for each, the uuid counter and the clock. -/
structure Mem where
  orders : List (Nat × Order)
  limits : List (Nat × Limit)
  nextOrderA : Nat
  nextLimitA : Nat
  nextId : Nat
  clock : Nat
deriving DecidableEq, Repr

/-- Go `type OrderBook struct`: the two sorted slices of limit pointers,
the two price-indexed maps of limit pointers, and the last traded price. -/
structure OrderBook where
  BuyLimits : List Nat
  SellLimits : List Nat
  buyLimitsMap : List (Rat × Nat)
  sellLimitsMap : List (Rat × Nat)
  Price : Rat
deriving DecidableEq, Repr

/-- A whole program state: the heap and the order book. -/
structure State where
  mem : Mem
  ob : OrderBook
deriving DecidableEq, Repr

/-- The error values the code creates with `errors.New`, one constructor
per call site. -/
inductive Err
  | notReady            -- "order-book as 0 buy or sell limits"
  | invalidPrice        -- "can't place order if Price <= 0"
  | invalidQty          -- "can't place order if quantity <= 0"
  | crossesBuy          -- "can't place a buy limit order higher than midPrice"
  | crossesSell         -- "can't place a sell limit order lower than midPrice"
  | notFound            -- "no order having this id in this limit"
  | invalidMarketQty    -- "error, market order qty <= 0"
  | insufficientLiquidity -- "can't execute market order : order qty > total Volume"
deriving DecidableEq, Repr

/-- The outcome of an operation: Go `nil` error, a returned error value,
or a runtime panic (nil-pointer dereference or out-of-range index). -/
inductive Res
  | ok
  | err (e : Err)
  | panicked
deriving DecidableEq, Repr

/-- Read an order cell from the heap. -/
def getOrder (s : State) (a : Nat) : Option Order :=
  alookup s.mem.orders a

/-- Write an order cell in the heap. -/
def setOrder (s : State) (a : Nat) (o : Order) : State :=
  { s with mem := { s.mem with orders := aupdate s.mem.orders a o } }

/-- Read a limit cell from the heap. -/
def getLimit (s : State) (a : Nat) : Option Limit :=
  alookup s.mem.limits a

/-- Write a limit cell in the heap. -/
def setLimit (s : State) (a : Nat) (l : Limit) : State :=
  { s with mem := { s.mem with limits := aupdate s.mem.limits a l } }

/-- The `Price` field of the limit at address `a` (addresses stored in the
book always point at allocated limits, so the default is never read). -/
def priceOf (m : Mem) (a : Nat) : Rat :=
  (alookup m.limits a).elim 0 (·.Price)

/-- The `Volume` field of the limit at address `a`. -/
def volOf (m : Mem) (a : Nat) : Rat :=
  (alookup m.limits a).elim 0 (·.Volume)

/-- Go `func newOrder(qty float64) *Order`: allocates a fresh order with a
fresh id (modelling `uuid.New()`) and the current timestamp. -/
def newOrder (s : State) (qty : Rat) : Nat × State :=
  let a := s.mem.nextOrderA
  let o : Order := { id := s.mem.nextId, qty := qty, timestamp := s.mem.clock, next := none }
  (a, { s with mem := { s.mem with
          orders := s.mem.orders ++ [(a, o)],
          nextOrderA := a + 1,
          nextId := s.mem.nextId + 1,
          clock := s.mem.clock + 1 } })

/-- Go `func newLimit(Price float64) *Limit`: a fresh limit with volume 0
and an empty queue (`newOrderQueue` yields `rear = front = nil`). -/
def newLimit (s : State) (Price : Rat) : Nat × State :=
  let a := s.mem.nextLimitA
  let l : Limit := { Price := Price, Volume := 0, front := none, rear := none }
  (a, { s with mem := { s.mem with
          limits := s.mem.limits ++ [(a, l)],
          nextLimitA := a + 1 } })

/-- Go `func (l *Limit) addOrder(o *Order)`: appends the order at the rear
of the queue and adds its quantity to the cached volume.  Note that a
stale non-nil `rear` (left behind by `deleteOrder`, see below) is chained
to exactly as in the source.  The dangling-address fallbacks return the
state unchanged; all call sites pass addresses of allocated cells. -/
def Limit.addOrder (s : State) (la oa : Nat) : State :=
  match getLimit s la, getOrder s oa with
  | some l, some o =>
    match l.rear with
    | some r =>
      -- l.orders.rear.next = o ; l.orders.rear = l.orders.rear.next
      let s1 := match getOrder s r with
                | some ro => setOrder s r { ro with next := some oa }
                | none => s
      setLimit s1 la { l with rear := some oa, Volume := l.Volume + o.qty }
    | none =>
      -- l.orders.rear = o ; l.orders.front = l.orders.rear
      setLimit s la { l with rear := some oa, front := some oa, Volume := l.Volume + o.qty }
  | _, _ => s

/-- The scan loop of `deleteOrder`: `temp` walks the queue from the front;
when `temp.next` has the wanted id the volume is decremented and the node
is spliced out.  The fuel bounds the walk; it is chosen strictly larger
than the number of allocated orders, so exhaustion (reported as a panic)
is unreachable for the chains the code builds. -/
def delScan (s : State) (la : Nat) (id : Nat) : Nat → Nat → Res × State
  | 0, _ => (.panicked, s)
  | fuel + 1, t =>
    match getOrder s t with
    | none => (.panicked, s)
    | some tnode =>
      match tnode.next with
      | none => (.err .notFound, s)
      | some n =>
        match getOrder s n with
        | none => (.panicked, s)
        | some no =>
          if no.id = id then
            -- l.Volume -= temp.next.qty ; temp.next = temp.next.next
            let s1 := match getLimit s la with
                      | some l => setLimit s la { l with Volume := l.Volume - no.qty }
                      | none => s
            (.ok, setOrder s1 t { tnode with next := no.next })
          else
            delScan s la id fuel n

/-- Go `func (l *Limit) deleteOrder(id uuid.UUID) error`.  A nil receiver
(the caller looked up an absent price) or a nil `front` dereferences nil
and panics, exactly as in the source.  When the front order matches, only
`front` is advanced: `rear` is left pointing at the removed node. -/
def Limit.deleteOrder (s : State) (la : Option Nat) (id : Nat) : Res × State :=
  match la with
  | none => (.panicked, s)          -- Go: method call on a nil *Limit, l.orders panics
  | some la =>
    match getLimit s la with
    | none => (.panicked, s)        -- dangling address: unreachable
    | some l =>
      match l.front with
      | none => (.panicked, s)      -- Go: l.orders.front.id dereferences nil
      | some f =>
        match getOrder s f with
        | none => (.panicked, s)    -- dangling address: unreachable
        | some fo =>
          if fo.id = id then
            -- l.Volume -= front.qty ; front = front.next   (rear is NOT updated)
            (.ok, setLimit s la { l with Volume := l.Volume - fo.qty, front := fo.next })
          else
            delScan s la id s.mem.nextOrderA f

/-- Insert into a list sorted by the boolean comparator. -/
def insertSorted (le : Nat → Nat → Bool) (a : Nat) : List Nat → List Nat
  | [] => [a]
  | b :: bs => if le a b then a :: b :: bs else b :: insertSorted le a bs

/-- Insertion sort by a boolean comparator.  The side slices never hold
two limits with the same price, so this produces the same ordering as
Go `sort.Sort` with the corresponding `Less`. -/
def insSort (le : Nat → Nat → Bool) : List Nat → List Nat
  | [] => []
  | a :: xs => insertSorted le a (insSort le xs)

/-- Go `sort.Sort(byHighestPrice(...))`: descending by price. -/
def sortBuys (m : Mem) (xs : List Nat) : List Nat :=
  insSort (fun a b => decide (priceOf m b ≤ priceOf m a)) xs

/-- Go `sort.Sort(byLowestPrice(...))`: ascending by price. -/
def sortSells (m : Mem) (xs : List Nat) : List Nat :=
  insSort (fun a b => decide (priceOf m a ≤ priceOf m b)) xs

/-- Go `func New() *OrderBook`, paired with an empty heap. -/
def New : State :=
  { mem := { orders := [], limits := [], nextOrderA := 0, nextLimitA := 0, nextId := 0, clock := 0 },
    ob := { BuyLimits := [], SellLimits := [], buyLimitsMap := [], sellLimitsMap := [], Price := 0 } }

/-- Go `func (ob *OrderBook) addLimit(buyLimit bool, l *Limit)`: index the
limit in the price map, append it to the slice, and re-sort the slice. -/
def addLimit (s : State) (buyLimit : Bool) (la : Nat) : State :=
  if buyLimit then
    { s with ob := { s.ob with
        buyLimitsMap := aupdate s.ob.buyLimitsMap (priceOf s.mem la) la,
        BuyLimits := sortBuys s.mem (s.ob.BuyLimits ++ [la]) } }
  else
    { s with ob := { s.ob with
        sellLimitsMap := aupdate s.ob.sellLimitsMap (priceOf s.mem la) la,
        SellLimits := sortSells s.mem (s.ob.SellLimits ++ [la]) } }

/-- Go `func (ob *OrderBook) Init(midPrice float64)`: one limit and one
zero-quantity order are allocated, and the SAME limit is added to both
sides (both slices and both maps hold the same address). -/
def Init (s : State) (midPrice : Rat) : State :=
  let (la, s1) := newLimit s midPrice
  let (oa, s2) := newOrder s1 0
  let s3 := Limit.addOrder s2 la oa
  let s4 := addLimit s3 true la
  addLimit s4 false la

/-- Go `func (ob *OrderBook) Reset()`: empties both slices and both maps
and zeroes the last traded price (the heap cells become garbage). -/
def Reset (s : State) : State :=
  { s with ob := { BuyLimits := [], SellLimits := [], buyLimitsMap := [],
                   sellLimitsMap := [], Price := 0 } }

/-- Modelled from the spec: the HTTP adapter behind `POST /init` is not
under src/ (only `Init` and `Reset` are).  Per the spec, Initialize
"resets both sides to empty, then inserts, on both sides, a single
PriceLevel at midPrice containing one zero-quantity order", realized as
`Reset` followed by `Init` from orderbook.go. -/
def fullInit (s : State) (midPrice : Rat) : State :=
  Init (Reset s) midPrice

/-- Go `func (ob *OrderBook) getMidPrice() (float64, error)`. -/
def getMidPrice (s : State) : Except Err Rat :=
  match s.ob.BuyLimits, s.ob.SellLimits with
  | b0 :: _, s0 :: _ => .ok ((priceOf s.mem b0 + priceOf s.mem s0) / 2)
  | _, _ => .error .notReady

/-- Go `func (ob *OrderBook) getSpread() (float64, error)`: note that the
empty case returns 0 with a nil error, unlike `getMidPrice`. -/
def getSpread (s : State) : Rat :=
  match s.ob.BuyLimits, s.ob.SellLimits with
  | b0 :: _, s0 :: _ => priceOf s.mem s0 - priceOf s.mem b0
  | _, _ => 0

/-- Go `func (ob *OrderBook) getTotalVolume(buyLimits bool) float64`. -/
def getTotalVolume (s : State) (buyLimits : Bool) : Rat :=
  ((if buyLimits then s.ob.BuyLimits else s.ob.SellLimits).map (volOf s.mem)).sum

/-- Go `func (ob *OrderBook) canDeleteLimit(buyLimit bool) bool`:
a limit may be deleted only if it is not the last one on its side. -/
def canDeleteLimit (s : State) (buyLimit : Bool) : Prop :=
  if buyLimit then 1 < s.ob.BuyLimits.length else 1 < s.ob.SellLimits.length

instance (s : State) (b : Bool) : Decidable (canDeleteLimit s b) := by
  unfold canDeleteLimit; split <;> infer_instance

/-- Go slice surgery `xs[pos] = xs[len-1]; xs = xs[:len-1]`.  All call
sites pass `pos < xs.length`, so the defaulting on an empty list is
unreachable. -/
def removeAt (xs : List Nat) (pos : Nat) : List Nat :=
  (xs.set pos (xs.getLastD 0)).dropLast

/-- Go `func (ob *OrderBook) deleteLimit(buyLimit bool, pos int, Price float64)`:
swap-remove from the slice, delete the price from the map, re-sort. -/
def deleteLimit (s : State) (buyLimit : Bool) (pos : Nat) (Price : Rat) : State :=
  if buyLimit then
    { s with ob := { s.ob with
        BuyLimits := sortBuys s.mem (removeAt s.ob.BuyLimits pos),
        buyLimitsMap := aerase s.ob.buyLimitsMap Price } }
  else
    { s with ob := { s.ob with
        SellLimits := sortSells s.mem (removeAt s.ob.SellLimits pos),
        sellLimitsMap := aerase s.ob.sellLimitsMap Price } }

/-- The price of the head of a side slice (read under a nonemptiness
guard at every call site). -/
def headPrice (s : State) (buyLimit : Bool) : Rat :=
  match (if buyLimit then s.ob.BuyLimits else s.ob.SellLimits) with
  | [] => 0
  | a :: _ => priceOf s.mem a

/-- The volume of the head of a side slice. -/
def headVolume (s : State) (buyLimit : Bool) : Rat :=
  match (if buyLimit then s.ob.BuyLimits else s.ob.SellLimits) with
  | [] => 0
  | a :: _ => volOf s.mem a

/-- The lazy-cleanup epilogue of `PlaceLimitOrder` (lines 227-231): if the
top buy limit has zero volume and may be deleted, delete it; otherwise,
if the top sell limit has zero volume and may be deleted, delete that. -/
def cleanupTop (s : State) : State :=
  if canDeleteLimit s true ∧ headVolume s true = 0 then
    deleteLimit s true 0 (headPrice s true)
  else if canDeleteLimit s false ∧ headVolume s false = 0 then
    deleteLimit s false 0 (headPrice s false)
  else s

/-- The insertion step of `PlaceLimitOrder` after validation has passed:
if no limit is indexed at the price, a fresh one is created, receives the
order, and is added to the side; otherwise the order is appended to the
existing limit (lines 199-225). -/
def placeInsert (s1 : State) (buyOrder : Bool) (Price : Rat) (oa : Nat) : State :=
  if buyOrder then
    match alookup s1.ob.buyLimitsMap Price with
    | none =>
      let (la, sA) := newLimit s1 Price
      let sB := Limit.addOrder sA la oa
      addLimit sB true la
    | some la => Limit.addOrder s1 la oa
  else
    match alookup s1.ob.sellLimitsMap Price with
    | none =>
      let (la, sA) := newLimit s1 Price
      let sB := Limit.addOrder sA la oa
      addLimit sB false la
    | some la => Limit.addOrder s1 la oa

/-- Go `func (ob *OrderBook) PlaceLimitOrder(buyOrder bool, Price, qty float64)`:
the order (and its id) is allocated before any validation; every failure
returns that id together with the error and leaves the book untouched;
success inserts the order and then runs the lazy top-of-book cleanup. -/
def PlaceLimitOrder (s : State) (buyOrder : Bool) (Price qty : Rat) :
    (Nat × Option Err) × State :=
  let oid := s.mem.nextId
  let (oa, s1) := newOrder s qty
  match getMidPrice s1 with
  | .error e => ((oid, some e), s1)
  | .ok midPrice =>
    if Price ≤ 0 then ((oid, some .invalidPrice), s1)
    else if qty ≤ 0 then ((oid, some .invalidQty), s1)
    else if buyOrder ∧ midPrice < Price then ((oid, some .crossesBuy), s1)
    else if ¬buyOrder ∧ Price < midPrice then ((oid, some .crossesSell), s1)
    else ((oid, none), cleanupTop (placeInsert s1 buyOrder Price oa))

/-- The `for i, limit := range side { if limit.Price == Price { deleteLimit } }`
loop of `CancelLimitOrder`.  Go ranges over the slice value captured
before any mutation; since a side never holds two limits at one price the
body runs at most once, which this walk over the captured list
reproduces (`deleteLimit` does not touch the heap, so the prices read
from the captured addresses are stable). -/
def cancelSweep (buyLimit : Bool) (Price : Rat) : List Nat → Nat → State → State
  | [], _, s => s
  | a :: rest, i, s =>
    if priceOf s.mem a = Price then
      cancelSweep buyLimit Price rest (i + 1) (deleteLimit s buyLimit i Price)
    else
      cancelSweep buyLimit Price rest (i + 1) s

/-- Go `func (ob *OrderBook) CancelLimitOrder(id uuid.UUID, Price float64) error`:
the side is derived from the price relative to the current mid-price; a
missing level means `deleteOrder` is invoked on a nil pointer (panic). -/
def CancelLimitOrder (s : State) (id : Nat) (Price : Rat) : Res × State :=
  match getMidPrice s with
  | .error e => (.err e, s)
  | .ok midPrice =>
    if Price < midPrice then
      match Limit.deleteOrder s (alookup s.ob.buyLimitsMap Price) id with
      | (.err e, s1) => (.err e, s1)
      | (.panicked, s1) => (.panicked, s1)
      | (.ok, s1) =>
        if canDeleteLimit s1 true ∧ (alookup s1.ob.buyLimitsMap Price).elim 0 (volOf s1.mem ·) = 0 then
          (.ok, cancelSweep true Price s1.ob.BuyLimits 0 s1)
        else (.ok, s1)
    else
      match Limit.deleteOrder s (alookup s.ob.sellLimitsMap Price) id with
      | (.err e, s1) => (.err e, s1)
      | (.panicked, s1) => (.panicked, s1)
      | (.ok, s1) =>
        if canDeleteLimit s1 false ∧ (alookup s1.ob.sellLimitsMap Price).elim 0 (volOf s1.mem ·) = 0 then
          (.ok, cancelSweep false Price s1.ob.SellLimits 0 s1)
        else (.ok, s1)

/-- The side slice the market order consumes (`side = true` reads
`BuyLimits`, i.e. the opposing side of a sell market order). -/
def limList (s : State) (side : Bool) : List Nat :=
  if side then s.ob.BuyLimits else s.ob.SellLimits

/-- The first loop of `PlaceMarketOrder`: while the remaining quantity
covers the whole best level, record its price as the last traded price
and delete the level (`deleteLimit side 0`).  Each iteration shortens
the slice by one, so the fuel `length + 1` passed by the caller never
runs out; the fuel-exhausted branch returns the pair unchanged. -/
def marketWhole (side : Bool) : Nat → Rat → State → Rat × State
  | 0, q, s => (q, s)
  | fuel + 1, q, s =>
    match limList s side with
    | [] => (q, s)
    | l0 :: _ =>
      if volOf s.mem l0 ≤ q then
        -- qty -= Volume ; ob.Price = Price ; deleteLimit(side, 0, Price)
        let q1 := q - volOf s.mem l0
        let s1 := { s with ob := { s.ob with Price := priceOf s.mem l0 } }
        marketWhole side fuel q1 (deleteLimit s1 side 0 (priceOf s1.mem l0))
      else (q, s)

/-- The second loop of `PlaceMarketOrder`: while the remaining quantity
covers the front order of the best level, record the price, decrement
the volume and pop the front order.  Evaluating the condition on an
empty queue dereferences a nil `front` and panics, as in the source.
The fuel strictly exceeds the number of allocated orders, so exhaustion
(reported as a panic) is unreachable for the queues the code builds. -/
def marketFront (side : Bool) : Nat → Rat → State → Res × (Rat × State)
  | 0, q, s => (.panicked, (q, s))
  | fuel + 1, q, s =>
    match limList s side with
    | [] => (.ok, (q, s))
    | l0 :: _ =>
      match getLimit s l0 with
      | none => (.panicked, (q, s))     -- dangling address: unreachable
      | some l =>
        match l.front with
        | none => (.panicked, (q, s))   -- Go: .orders.front.qty dereferences nil
        | some f =>
          match getOrder s f with
          | none => (.panicked, (q, s)) -- dangling address: unreachable
          | some fo =>
            if fo.qty ≤ q then
              -- ob.Price = Price ; Volume -= front.qty ; qty -= front.qty ; front = front.next
              let s1 := { s with ob := { s.ob with Price := l.Price } }
              let s2 := setLimit s1 l0 { l with Volume := l.Volume - fo.qty, front := fo.next }
              marketFront side fuel (q - fo.qty) s2
            else (.ok, (q, s))

/-- The final step of `PlaceMarketOrder`: if some quantity remains it is
taken from the front order of the best level, which is decremented in
place together with the cached volume. -/
def marketLast (side : Bool) (q : Rat) (s : State) : Res × State :=
  if q = 0 then (.ok, s)
  else
    match limList s side with
    | [] => (.panicked, s)              -- Go: index [0] out of range
    | l0 :: _ =>
      match getLimit s l0 with
      | none => (.panicked, s)          -- dangling address: unreachable
      | some l =>
        match l.front with
        | none => (.panicked, s)        -- Go: .orders.front.qty dereferences nil
        | some f =>
          match getOrder s f with
          | none => (.panicked, s)      -- dangling address: unreachable
          | some fo =>
            -- ob.Price = Price ; front.qty -= qty ; Volume -= qty
            let s1 := { s with ob := { s.ob with Price := l.Price } }
            let s2 := setOrder s1 f { fo with qty := fo.qty - q }
            (.ok, setLimit s2 l0 { l with Volume := l.Volume - q })

/-- The three-phase sweep of one side by a market order. -/
def marketSweep (side : Bool) (q : Rat) (s : State) : Res × State :=
  let (q1, s1) := marketWhole side ((limList s side).length + 1) q s
  match marketFront side (s1.mem.nextOrderA + 1) q1 s1 with
  | (.panicked, (_, s2)) => (.panicked, s2)
  | (.err e, (_, s2)) => (.err e, s2)   -- marketFront never returns err
  | (.ok, (q2, s2)) => marketLast side q2 s2

/-- Go `func (ob *OrderBook) PlaceMarketOrder(buyOrder bool, qty float64) error`:
validates the quantity and that it is strictly below the opposing total
volume, then sweeps the opposing side. -/
def PlaceMarketOrder (s : State) (buyOrder : Bool) (qty : Rat) : Res × State :=
  if qty ≤ 0 then (.err .invalidMarketQty, s)
  else if buyOrder then
    if getTotalVolume s false ≤ qty then (.err .insufficientLiquidity, s)
    else marketSweep false qty s
  else
    if getTotalVolume s true ≤ qty then (.err .insufficientLiquidity, s)
    else marketSweep true qty s

/-- The quantities of the orders reachable from a queue cursor via `next`
(front first).  The fuel bounds the walk; callers pass a bound strictly
larger than the number of allocated orders. -/
def queueQtys (m : Mem) : Nat → Option Nat → List Rat
  | _, none => []
  | 0, some _ => []
  | fuel + 1, some a =>
    match alookup m.orders a with
    | none => []
    | some o => o.qty :: queueQtys m fuel o.next

/-- The ids of the orders reachable from a queue cursor via `next`. -/
def queueIds (m : Mem) : Nat → Option Nat → List Nat
  | _, none => []
  | 0, some _ => []
  | fuel + 1, some a =>
    match alookup m.orders a with
    | none => []
    | some o => o.id :: queueIds m fuel o.next

/-- Observation of one price level: its price, its cached volume, and the
quantities of the orders reachable from the front of its queue. -/
def levelView (m : Mem) (a : Nat) : Rat × Rat × List Rat :=
  match alookup m.limits a with
  | none => (0, 0, [])
  | some l => (l.Price, l.Volume, queueQtys m m.nextOrderA l.front)

/-- Observation of a whole side, best price first. -/
def sideView (s : State) (buySide : Bool) : List (Rat × Rat × List Rat) :=
  (if buySide then s.ob.BuyLimits else s.ob.SellLimits).map (levelView s.mem)

/-- The mutating operations an external caller can invoke after start-up
(snapshot reads `GetData`, `getSpread`, `getMidPrice` are pure functions
of the state and mutate nothing). -/
inductive Op
  | reinit (midPrice : Rat)
  | limit (buyOrder : Bool) (Price qty : Rat)
  | cancel (id : Nat) (Price : Rat)
  | market (buyOrder : Bool) (qty : Rat)
deriving DecidableEq, Repr

/-- The state after one operation (for a failing or panicking call, the
state at the moment the call returned or panicked). -/
def applyOp (s : State) : Op → State
  | .reinit m => fullInit s m
  | .limit b p q => (PlaceLimitOrder s b p q).2
  | .cancel id p => (CancelLimitOrder s id p).2
  | .market b q => (PlaceMarketOrder s b q).2

/-- The state after a sequence of operations. -/
def runOps (s : State) : List Op → State
  | [] => s
  | op :: rest => runOps (applyOp s op) rest

/-- The quantities of the orders reachable from the front of the queue of
the limit at address `a`. -/
def queueOf (m : Mem) (a : Nat) : List Rat :=
  match alookup m.limits a with
  | none => []
  | some l => queueQtys m m.nextOrderA l.front

/-- The volume-consistency property of one price level: the cached
`Volume` equals the sum of the quantities of the orders reachable from
the front of its queue. -/
def levelConsistent (m : Mem) (a : Nat) : Prop :=
  volOf m a = (queueOf m a).sum

instance (m : Mem) (a : Nat) : Decidable (levelConsistent m a) := by
  unfold levelConsistent; infer_instance

instance {ε α : Type} [DecidableEq ε] [DecidableEq α] : DecidableEq (Except ε α) := fun
  | .ok a, .ok b => decidable_of_iff (a = b) (by simp)
  | .ok _, .error _ => isFalse (by simp)
  | .error _, .ok _ => isFalse (by simp)
  | .error a, .error b => decidable_of_iff (a = b) (by simp)

/-! Concrete scenario A (for C1 and C4): Initialize(100); buy 99 qty 5
returning id 1; CancelLimitOrder(1, 99); buy 99 qty 7.  The cancel
removes the sole order of the only bid level (which the
single-remaining-level floor keeps), leaving `front = nil` but a stale
`rear`; the second placement appends behind the stale `rear`. -/

def scnA0 : State := fullInit New 100

def scnA1 : State := (PlaceLimitOrder scnA0 true 99 5).2

def scnA2 : State := (CancelLimitOrder scnA1 1 99).2

def scnA3 : State := (PlaceLimitOrder scnA2 true 99 7).2

/-- C1: the claim states that after every operation each level's cached
volume equals the sum of the quantities reachable in its queue from the
front, in particular after cancelling the sole order of a floor-protected
level and placing a new limit order at the same price.  The code violates
this: `deleteOrder` advances `front` without clearing `rear`, so the next
`addOrder` appends behind the stale `rear` and the level at price 99 ends
with `Volume = 7` while no order is reachable from `front` (sum 0). -/
theorem c1_volume_desync :
    (PlaceLimitOrder scnA0 true 99 5).1 = (1, none) ∧
    (CancelLimitOrder scnA1 1 99).1 = Res.ok ∧
    (PlaceLimitOrder scnA2 true 99 7).1 = (2, none) ∧
    scnA3.ob.BuyLimits = [1] ∧
    volOf scnA3.mem 1 = 7 ∧
    queueOf scnA3.mem 1 = [] ∧
    ¬ levelConsistent scnA3.mem 1 := by
  decide

/-- C4: the claim states that cancelling at a price whose derived side
has no indexed level, or whose level has an empty queue, returns the
NotFound error without crashing.  The code instead panics in both cases:
with no level, `deleteOrder` is called on a nil `*Limit`; with an empty
queue, `l.orders.front.id` dereferences nil.  Both failing inputs are
evaluated here: Initialize(100) then CancelLimitOrder(7, 50), and
scenario A after the cancel (bid level 99 with an empty queue) then
CancelLimitOrder(7, 99). -/
theorem c4_cancel_panics :
    (CancelLimitOrder scnA0 7 50).1 = Res.panicked ∧
    (CancelLimitOrder scnA2 7 99).1 = Res.panicked := by
  decide

/-! Concrete scenario B (for C7, following the spec scenario of section 8):
Initialize(100); buy 99 qty 5 returning id 1; sell 101 qty 3; market buy
qty 2; CancelLimitOrder(1, 99). -/

def scnB2 : State := (PlaceLimitOrder scnA1 false 101 3).2

def scnB3 : State := (PlaceMarketOrder scnB2 true 2).2

def scnB4 : State := (CancelLimitOrder scnB3 1 99).2

/-- C7 counterexample: in the state after Initialize(100), buy(99,5) = id1,
sell(101,3), market-buy(2), the claim states that CancelLimitOrder(1, 99)
succeeds and leaves the bid side consisting solely of the bootstrap
level at the mid-price 100.  The cancel does succeed, but the bid side is
a single zero-volume level at price 99: the bootstrap bid level at 100
was already removed by the lazy cleanup when the buy at 99 was placed,
and the emptied level at 99 is kept by the single-remaining-level floor. -/
theorem c7_counterexample :
    (CancelLimitOrder scnB3 1 99).1 = Res.ok ∧
    sideView scnB4 true = [(99, 0, [])] ∧
    sideView scnB4 true ≠ [(100, 0, [0])] := by
  decide

/-- C7 amended: in the same scenario, CancelLimitOrder(1, 99) succeeds and
afterwards the bid side consists solely of a zero-volume level at price
99 (kept as the sole bid level by the single-remaining-level floor; the
bootstrap level at 100 was removed earlier, when the buy at 99 was
placed), while the ask side still holds the level at 101 with volume 1. -/
theorem c7_amended_cancel :
    (PlaceLimitOrder scnA0 true 99 5).1 = (1, none) ∧
    sideView scnA1 true = [(99, 5, [5])] ∧
    (PlaceMarketOrder scnB2 true 2).1 = Res.ok ∧
    (CancelLimitOrder scnB3 1 99).1 = Res.ok ∧
    sideView scnB4 true = [(99, 0, [])] ∧
    sideView scnB4 false = [(101, 1, [1])] := by
  decide

/-- C2 counterexample: the claim states that no PriceLevel belongs to both
sides and that a successful buy at the mid-price right after Initialize
changes no ask-side level.  In the code `Init` inserts one and the same
limit into both sides, a buy priced exactly at the mid-price is accepted,
and it raises the volume of the shared (ask-side) level from 0 to 5. -/
theorem c2_counterexample :
    scnA0.ob.BuyLimits = scnA0.ob.SellLimits ∧
    (PlaceLimitOrder scnA0 true 100 5).1.2 = none ∧
    sideView scnA0 false = [(100, 0, [0])] ∧
    sideView (PlaceLimitOrder scnA0 true 100 5).2 false = [(100, 5, [0, 5])] := by
  decide

/-- C5 counterexample: the claim states that a buy limit order priced at
or above the mid-price always fails.  A buy priced exactly at the
mid-price is accepted: the crossing check rejects only `Price > midPrice`
(strictly). -/
theorem c5_counterexample :
    getMidPrice scnA0 = .ok 100 ∧
    (PlaceLimitOrder scnA0 true 100 5).1.2 = none := by
  decide

/-- C6 counterexample: the claim states that every `qty` at least the
opposing total volume makes PlaceMarketOrder fail with
InsufficientLiquidity.  Right after Initialize(100) the opposing total
volume is 0, so `qty = 0` satisfies the hypothesis, yet the code fails
with the quantity-validation error instead. -/
theorem c6_counterexample :
    getTotalVolume scnA0 false = 0 ∧
    (PlaceMarketOrder scnA0 true 0).1 = Res.err Err.invalidMarketQty ∧
    Err.invalidMarketQty ≠ Err.insufficientLiquidity := by
  decide

/-- Lookups in an association list survive appending new bindings. -/
theorem alookup_append_some {κ β : Type} [DecidableEq κ] {l l2 : List (κ × β)} {k : κ} {v : β}
    (h : alookup l k = some v) : alookup (l ++ l2) k = some v := by
  induction l with
  | nil => simp [alookup] at h
  | cons kv rest ih =>
    obtain ⟨k0, v0⟩ := kv
    by_cases hk : k0 = k
    · simpa [alookup, hk] using h
    · simp [alookup, hk] at h ⊢
      exact ih h

/-- Unfolding lemma for `PlaceLimitOrder`: the validation prefix reads the
mid-price of the original state (the preceding order allocation touches
neither side nor any limit), and every failure path returns the
allocation-only state. -/
theorem PlaceLimitOrder_eq (s : State) (b : Bool) (P q : Rat) :
    PlaceLimitOrder s b P q =
      (match getMidPrice s with
       | .error e => ((s.mem.nextId, some e), (newOrder s q).2)
       | .ok midPrice =>
         if P ≤ 0 then ((s.mem.nextId, some Err.invalidPrice), (newOrder s q).2)
         else if q ≤ 0 then ((s.mem.nextId, some Err.invalidQty), (newOrder s q).2)
         else if b ∧ midPrice < P then ((s.mem.nextId, some Err.crossesBuy), (newOrder s q).2)
         else if ¬b ∧ P < midPrice then ((s.mem.nextId, some Err.crossesSell), (newOrder s q).2)
         else ((s.mem.nextId, none),
               cleanupTop (placeInsert (newOrder s q).2 b P (newOrder s q).1))) :=
  rfl

/-- C6 amended: for every book state and every `qty` at least the opposing
total volume the market order fails and returns the state unchanged (the
validations precede every mutation); the error is InsufficientLiquidity
when `qty` is positive and the quantity-validation error otherwise. -/
theorem c6_amended (s : State) (b : Bool) (q : Rat)
    (h : getTotalVolume s (!b) ≤ q) :
    ∃ e, PlaceMarketOrder s b q = (Res.err e, s) ∧
      (0 < q → e = Err.insufficientLiquidity) ∧
      (q ≤ 0 → e = Err.invalidMarketQty) := by
  by_cases hq : q ≤ 0
  · exact ⟨.invalidMarketQty, by simp [PlaceMarketOrder, hq],
      fun h0 => absurd h0 (not_lt.mpr hq), fun _ => rfl⟩
  · refine ⟨.insufficientLiquidity, ?_, fun _ => rfl, fun h0 => absurd h0 hq⟩
    cases b with
    | true => simp only [Bool.not_true] at h; simp [PlaceMarketOrder, hq, h]
    | false => simp only [Bool.not_false] at h; simp [PlaceMarketOrder, hq, h]

/-- Witness for C6 amended at Initialize(100) and `qty = 5 ≥ 0`. -/
theorem c6_amended_witness :
    getTotalVolume scnA0 (!true) ≤ 5 ∧
    (∃ e, PlaceMarketOrder scnA0 true 5 = (Res.err e, scnA0) ∧
      ((0:Rat) < 5 → e = Err.insufficientLiquidity) ∧
      ((5:Rat) ≤ 0 → e = Err.invalidMarketQty)) :=
  ⟨by decide, c6_amended scnA0 true 5 (by decide)⟩

/-- C5 amended: a buy limit order priced strictly above the mid-price, or
a sell limit order priced strictly below it (with the positivity checks
passed, which run first), always fails with the corresponding crossing
error, and the book is untouched: the resulting state differs from the
original only by the allocation of the (never inserted) order. -/
theorem c5_amended (s : State) (b : Bool) (P q mid : Rat)
    (hmid : getMidPrice s = .ok mid) (hP : 0 < P) (hq : 0 < q)
    (hcross : (b = true ∧ mid < P) ∨ (b = false ∧ P < mid)) :
    PlaceLimitOrder s b P q =
      ((s.mem.nextId, some (if b then Err.crossesBuy else Err.crossesSell)),
       (newOrder s q).2) ∧
    (newOrder s q).2.ob = s.ob ∧
    (newOrder s q).2.mem.limits = s.mem.limits ∧
    (∀ a o, getOrder s a = some o → getOrder (newOrder s q).2 a = some o) := by
  refine ⟨?_, rfl, rfl, fun a o ho => alookup_append_some ho⟩
  rw [PlaceLimitOrder_eq, hmid]
  rcases hcross with ⟨hb, hlt⟩ | ⟨hb, hlt⟩
  · subst hb
    simp [not_le.mpr hP, not_le.mpr hq, hlt]
  · subst hb
    simp [not_le.mpr hP, not_le.mpr hq, not_lt.mpr (le_of_lt hlt), hlt]

theorem alookup_aupdate_self {κ β : Type} [DecidableEq κ] (l : List (κ × β)) (k : κ) (v : β) :
    alookup (aupdate l k v) k = some v := by
  induction l with
  | nil => simp [aupdate, alookup]
  | cons kv rest ih =>
    obtain ⟨k0, v0⟩ := kv
    by_cases hk : k0 = k
    · simp [aupdate, hk, alookup]
    · simp [aupdate, hk, alookup, ih]

theorem alookup_aupdate_ne {κ β : Type} [DecidableEq κ] (l : List (κ × β)) (k k' : κ) (v : β)
    (h : k ≠ k') : alookup (aupdate l k v) k' = alookup l k' := by
  induction l with
  | nil => simp [aupdate, alookup, h]
  | cons kv rest ih =>
    obtain ⟨k0, v0⟩ := kv
    by_cases hk : k0 = k
    · subst hk
      simp [aupdate, alookup, h]
    · simp [aupdate, hk, alookup, ih]

theorem alookup_eq_none {κ β : Type} [DecidableEq κ] {l : List (κ × β)} {k : κ}
    (h : ∀ p ∈ l, p.1 ≠ k) : alookup l k = none := by
  induction l with
  | nil => rfl
  | cons kv rest ih =>
    obtain ⟨k0, v0⟩ := kv
    have hk : k0 ≠ k := h (k0, v0) (List.mem_cons_self _ _)
    simp [alookup, hk]
    exact ih fun p hp => h p (List.mem_cons_of_mem _ hp)

theorem alookup_append_none {κ β : Type} [DecidableEq κ] {l : List (κ × β)} (l2 : List (κ × β))
    {k : κ} (h : alookup l k = none) : alookup (l ++ l2) k = alookup l2 k := by
  induction l with
  | nil => rfl
  | cons kv rest ih =>
    obtain ⟨k0, v0⟩ := kv
    by_cases hk : k0 = k
    · simp [alookup, hk] at h
    · simp [alookup, hk] at h ⊢
      exact ih h

/-- An optional reference bounded by an allocator counter. -/
def obnd : Option Nat → Nat → Prop
  | none, _ => True
  | some x, n => x < n

instance : (v : Option Nat) → (n : Nat) → Decidable (obnd v n)
  | none, _ => isTrue trivial
  | some x, n => inferInstanceAs (Decidable (x < n))

theorem obnd_some {v : Option Nat} {n x : Nat} (h : obnd v n) (hx : v = some x) : x < n := by
  subst hx; exact h

/-- Bounds tying the stored addresses, references and ids to the
allocator counters: every stored key is below the corresponding counter,
every stored reference (order `next`, limit `front` and `rear`) points
below the order counter, and every stored order id is below the uuid
counter.  These hold for every state the code constructs and make fresh
allocations genuinely fresh. -/
def MemBounds (s : State) : Prop :=
  (∀ p ∈ s.mem.orders, p.1 < s.mem.nextOrderA ∧ p.2.id < s.mem.nextId ∧
     obnd p.2.next s.mem.nextOrderA) ∧
  (∀ p ∈ s.mem.limits, p.1 < s.mem.nextLimitA ∧
     obnd p.2.front s.mem.nextOrderA ∧ obnd p.2.rear s.mem.nextOrderA)

instance (s : State) : Decidable (MemBounds s) := by
  unfold MemBounds; infer_instance

/-- The two sides right after `fullInit`: each consists of exactly one
level at the given mid-price, with volume 0 and a single zero-quantity
order in its queue. -/
theorem fullInit_view (s : State) (m : Rat) (hB : MemBounds s) :
    sideView (fullInit s m) true = [(m, 0, [0])] ∧
    sideView (fullInit s m) false = [(m, 0, [0])] := by
  obtain ⟨hO, hL⟩ := hB
  have hLn : alookup (s.mem.limits ++ [(s.mem.nextLimitA, ⟨m, 0, none, none⟩)]) s.mem.nextLimitA
      = some ⟨m, 0, none, none⟩ := by
    rw [alookup_append_none _ (alookup_eq_none fun p hp => Nat.ne_of_lt (hL p hp).1)]
    simp [alookup]
  have hOn : alookup (s.mem.orders ++ [(s.mem.nextOrderA, ⟨s.mem.nextId, 0, s.mem.clock, none⟩)])
      s.mem.nextOrderA = some ⟨s.mem.nextId, 0, s.mem.clock, none⟩ := by
    rw [alookup_append_none _ (alookup_eq_none fun p hp => Nat.ne_of_lt (hO p hp).1)]
    simp [alookup]
  constructor
  · simp only [fullInit, Init, Reset, newLimit, newOrder, Limit.addOrder, getLimit, getOrder,
      addLimit, sortBuys, sortSells, insSort, insertSorted, priceOf, sideView, levelView,
      queueQtys, volOf, setLimit, setOrder]
    simp [hLn, hOn, alookup_aupdate_self, queueQtys, alookup, insSort, insertSorted,
      levelView, volOf, priceOf]
  · simp only [fullInit, Init, Reset, newLimit, newOrder, Limit.addOrder, getLimit, getOrder,
      addLimit, sortBuys, sortSells, insSort, insertSorted, priceOf, sideView, levelView,
      queueQtys, volOf, setLimit, setOrder]
    simp [hLn, hOn, alookup_aupdate_self, queueQtys, alookup, insSort, insertSorted,
      levelView, volOf, priceOf]

/-- C3: for every prior state (also a non-empty, already initialized
book), `fullInit` (Reset followed by Init, the composition behind
`POST /init`) leaves each side with exactly one level at the given
mid-price holding one zero-quantity order, and the result observably
equals `fullInit` on a fresh book: re-invoking it is a full reset. -/
theorem c3_reinit (s : State) (m : Rat) (hB : MemBounds s) :
    sideView (fullInit s m) true = [(m, 0, [0])] ∧
    sideView (fullInit s m) false = [(m, 0, [0])] ∧
    sideView (fullInit s m) true = sideView (fullInit New m) true ∧
    sideView (fullInit s m) false = sideView (fullInit New m) false := by
  obtain ⟨h1, h2⟩ := fullInit_view s m hB
  have hNew : MemBounds New := by constructor <;> simp [New]
  obtain ⟨g1, g2⟩ := fullInit_view New m hNew
  exact ⟨h1, h2, h1.trans g1.symm, h2.trans g2.symm⟩

/-- Unfolding lemma for a `PlaceLimitOrder` call that passes validation:
the order is inserted and the lazy top-of-book cleanup runs. -/
theorem PlaceLimitOrder_success (s : State) (b : Bool) (P q mid : Rat)
    (hmid : getMidPrice s = .ok mid) (hP : ¬ P ≤ 0) (hq : ¬ q ≤ 0)
    (hb : ¬ (b ∧ mid < P)) (hs : ¬ (¬b ∧ P < mid)) :
    PlaceLimitOrder s b P q =
      ((s.mem.nextId, none), cleanupTop (placeInsert (newOrder s q).2 b P (newOrder s q).1)) := by
  rw [PlaceLimitOrder_eq, hmid]
  dsimp only []
  rw [if_neg hP, if_neg hq, if_neg hb, if_neg hs]

/-- C2 amended: `Init` inserts one and the same level into both sides, so
right after `fullInit` the bootstrap level is shared (see the C2
counterexample for the consequence at the mid-price); but a successful
buy priced strictly below the mid-price right after `fullInit` targets a
fresh level and changes no ask-side level volume or queue: the ask-side
observation is exactly the bootstrap one before and after. -/
theorem c2_amended (m p q : Rat) (hp : 0 < p) (hpm : p < m) (hq : 0 < q) :
    (PlaceLimitOrder (fullInit New m) true p q).1.2 = none ∧
    sideView (PlaceLimitOrder (fullInit New m) true p q).2 false
      = sideView (fullInit New m) false := by
  have hm2 : (m + m) / 2 = m := by ring
  have hmid : getMidPrice (fullInit New m) = .ok m := by
    simp [fullInit, Init, Reset, New, newLimit, newOrder, Limit.addOrder, getLimit, getOrder,
      alookup, aupdate, addLimit, sortBuys, sortSells, insSort, insertSorted, priceOf,
      setLimit, setOrder, getMidPrice, hm2]
  rw [PlaceLimitOrder_success _ _ _ _ _ hmid (not_le.mpr hp) (not_le.mpr hq)
    (by simp [not_lt.mpr hpm.le]) (by simp)]
  refine ⟨rfl, ?_⟩
  simp only [fullInit, Init, Reset, New, newLimit, newOrder, Limit.addOrder, getLimit, getOrder,
    alookup, aupdate, addLimit, sortBuys, sortSells, insSort, insertSorted, priceOf, volOf,
    setLimit, setOrder, placeInsert, cleanupTop, canDeleteLimit, headVolume, headPrice,
    deleteLimit, removeAt, aerase, sideView, levelView, queueQtys]
  simp [hpm.ne, hpm.ne', hpm.le, alookup, aupdate, aerase, insSort, insertSorted, queueQtys,
    levelView, volOf, priceOf, List.set, List.getLastD, List.dropLast]

/-- Witness for C2 amended: a buy at 99 under mid-price 100. -/
theorem c2_amended_witness :
    ((0:Rat) < 99 ∧ (99:Rat) < 100 ∧ (0:Rat) < 5) ∧
    ((PlaceLimitOrder (fullInit New 100) true 99 5).1.2 = none ∧
     sideView (PlaceLimitOrder (fullInit New 100) true 99 5).2 false
       = sideView (fullInit New 100) false) :=
  ⟨⟨by decide, by decide, by decide⟩, c2_amended 100 99 5 (by decide) (by decide) (by decide)⟩

/-- Witness for C3 at the non-trivial prior state of scenario A (an
initialized book with resting orders) and mid-price 42. -/
theorem c3_reinit_witness :
    MemBounds scnA3 ∧
    (sideView (fullInit scnA3 42) true = [(42, 0, [0])] ∧
     sideView (fullInit scnA3 42) false = [(42, 0, [0])] ∧
     sideView (fullInit scnA3 42) true = sideView (fullInit New 42) true ∧
     sideView (fullInit scnA3 42) false = sideView (fullInit New 42) false) :=
  ⟨by decide, c3_reinit scnA3 42 (by decide)⟩

/-- Witness for C5 amended: a buy at 101 against mid-price 100. -/
theorem c5_amended_witness :
    ((0:Rat) < 101 ∧ (0:Rat) < 5 ∧ getMidPrice scnA0 = .ok 100) ∧
    (PlaceLimitOrder scnA0 true 101 5 =
      ((scnA0.mem.nextId, some (if true then Err.crossesBuy else Err.crossesSell)),
       (newOrder scnA0 5).2) ∧
     (newOrder scnA0 5).2.ob = scnA0.ob ∧
     (newOrder scnA0 5).2.mem.limits = scnA0.mem.limits ∧
     (∀ a o, getOrder scnA0 a = some o → getOrder (newOrder scnA0 5).2 a = some o)) :=
  ⟨⟨by decide, by decide, by decide⟩,
   c5_amended scnA0 true 101 5 100 (by decide) (by decide) (by decide)
     (Or.inl ⟨rfl, by decide⟩)⟩

theorem limList_setLimit (s : State) (a : Nat) (l : Limit) (side : Bool) :
    limList (setLimit s a l) side = limList s side := rfl

theorem marketWhole_exit (side : Bool) (fuel : Nat) (q : Rat) (s : State) (la : Nat)
    (tl : List Nat) (hside : limList s side = la :: tl) (hgt : ¬ volOf s.mem la ≤ q) :
    marketWhole side (fuel + 1) q s = (q, s) := by
  simp [marketWhole, hside, hgt]

theorem marketFront_step (side : Bool) (fuel : Nat) (q : Rat) (s : State) (la : Nat)
    (tl : List Nat) (l : Limit) (f : Nat) (fo : Order)
    (hside : limList s side = la :: tl) (hl : getLimit s la = some l)
    (hf : l.front = some f) (hfo : getOrder s f = some fo) (hle : fo.qty ≤ q) :
    marketFront side (fuel + 1) q s =
      marketFront side fuel (q - fo.qty)
        (setLimit { s with ob := { s.ob with Price := l.Price } } la
          { l with Volume := l.Volume - fo.qty, front := fo.next }) := by
  simp [marketFront, hside, hl, hf, hfo, hle]

theorem marketFront_exit (side : Bool) (fuel : Nat) (q : Rat) (s : State) (la : Nat)
    (tl : List Nat) (l : Limit) (f : Nat) (fo : Order)
    (hside : limList s side = la :: tl) (hl : getLimit s la = some l)
    (hf : l.front = some f) (hfo : getOrder s f = some fo) (hgt : ¬ fo.qty ≤ q) :
    marketFront side (fuel + 1) q s = (.ok, (q, s)) := by
  simp [marketFront, hside, hl, hf, hfo, hgt]

theorem marketLast_zero (side : Bool) (s : State) : marketLast side 0 s = (.ok, s) := by
  simp [marketLast]

theorem marketLast_step (side : Bool) (q : Rat) (s : State) (la : Nat)
    (tl : List Nat) (l : Limit) (f : Nat) (fo : Order)
    (hq : ¬ q = 0) (hside : limList s side = la :: tl) (hl : getLimit s la = some l)
    (hf : l.front = some f) (hfo : getOrder s f = some fo) :
    marketLast side q s =
      (.ok, setLimit
        (setOrder { s with ob := { s.ob with Price := l.Price } } f { fo with qty := fo.qty - q })
        la { l with Volume := l.Volume - q }) := by
  simp [marketLast, hq, hside, hl, hf, hfo]

theorem marketSweep_fifo (s : State) (side : Bool) (q : Rat)
    (la aA aB : Nat) (rest : List Nat) (L : Limit) (A B : Order)
    (hside : limList s side = la :: rest)
    (hL : getLimit s la = some L)
    (hfront : L.front = some aA)
    (hA : getOrder s aA = some A)
    (hnext : A.next = some aB)
    (hB : getOrder s aB = some B)
    (h1 : A.qty ≤ q)
    (h2 : q < A.qty + B.qty)
    (h3 : q < L.Volume)
    (hbound : aA < s.mem.nextOrderA) :
    (marketSweep side q s).1 = Res.ok ∧
    getLimit (marketSweep side q s).2 la = some ⟨L.Price, L.Volume - q, some aB, L.rear⟩ ∧
    getOrder (marketSweep side q s).2 aB = some ⟨B.id, A.qty + B.qty - q, B.timestamp, B.next⟩ ∧
    (marketSweep side q s).2.ob.Price = L.Price ∧
    limList (marketSweep side q s).2 side = la :: rest := by
  have hvol : volOf s.mem la = L.Volume := by
    unfold volOf
    unfold getLimit at hL
    rw [hL]
    rfl
  have hlen : (limList s side).length + 1 = rest.length + 1 + 1 := by rw [hside]; rfl
  have hW : marketWhole side ((limList s side).length + 1) q s = (q, s) := by
    rw [hlen]
    exact marketWhole_exit side _ q s la rest hside (by rw [hvol]; exact not_le.mpr h3)
  obtain ⟨n, hn⟩ : ∃ n, s.mem.nextOrderA = n + 1 :=
    ⟨s.mem.nextOrderA - 1, by omega⟩
  -- the state after consuming A
  set s1 : State := { s with ob := { s.ob with Price := L.Price } } with hs1
  set L1 : Limit := { L with Volume := L.Volume - A.qty, front := some aB } with hL1
  set s2 : State := setLimit s1 la L1 with hs2
  have hside2 : limList s2 side = la :: rest := hside
  have hgl2 : getLimit s2 la = some L1 := alookup_aupdate_self _ _ _
  have hgo2 : getOrder s2 aB = some B := hB
  have hF : marketFront side (s.mem.nextOrderA + 1) q s = (.ok, (q - A.qty, s2)) := by
    rw [hn]
    rw [marketFront_step side (n+1) q s la rest L aA A hside hL hfront hA h1]
    rw [hnext]
    rw [marketFront_exit side n (q - A.qty) s2 la rest L1 aB B hside2 hgl2 rfl hgo2
      (by simp only [not_le]; linarith)]
  have hsweep : marketSweep side q s = marketLast side (q - A.qty) s2 := by
    unfold marketSweep
    rw [hW]
    dsimp only []
    rw [hF]
  by_cases hqa : q - A.qty = 0
  · have hq' : q = A.qty := by linarith [sub_eq_zero.mp hqa]
    rw [hsweep, hqa, marketLast_zero]
    refine ⟨rfl, ?_, ?_, rfl, hside2⟩
    · rw [hgl2, hL1, hq']
    · rw [hgo2, hq']
      congr 1
      cases B
      simp only [Order.mk.injEq, true_and, and_true]
      ring
  · rw [hsweep, marketLast_step side (q - A.qty) s2 la rest L1 aB B hqa hside2 hgl2 rfl hgo2]
    refine ⟨rfl, ?_, ?_, rfl, ?_⟩
    · rw [show getLimit (setLimit (setOrder { s2 with ob := { s2.ob with Price := L1.Price } } aB
        { B with qty := B.qty - (q - A.qty) }) la { L1 with Volume := L1.Volume - (q - A.qty) }) la
        = some { L1 with Volume := L1.Volume - (q - A.qty) } from alookup_aupdate_self _ _ _]
      congr 1
      simp only [hL1, Limit.mk.injEq, true_and, and_true]
      ring
    · rw [show getOrder (setLimit (setOrder { s2 with ob := { s2.ob with Price := L1.Price } } aB
        { B with qty := B.qty - (q - A.qty) }) la { L1 with Volume := L1.Volume - (q - A.qty) }) aB
        = alookup (aupdate s2.mem.orders aB { B with qty := B.qty - (q - A.qty) }) aB from rfl]
      rw [alookup_aupdate_self]
      congr 1
      cases B
      simp only [Order.mk.injEq, true_and, and_true]
      ring
    · exact hside2

/-- C9: FIFO within a level.  For every state whose opposing side's best
level holds orders A then B at its queue front (A appended before B, so A
sits closer to the front), and every market order whose quantity reaches
that level and is large enough to fully consume exactly one of them
(A.qty <= qty < A.qty + B.qty, qty below the level's volume and the
side's total volume), the order succeeds, fully consumes and removes A
(the front moves to B), and B remains resting with the remainder
A.qty + B.qty - qty > 0; the last traded price becomes the level's
price and the level itself stays in the book. -/
theorem c9_fifo (s : State) (b : Bool) (q : Rat)
    (la aA aB : Nat) (rest : List Nat) (L : Limit) (A B : Order)
    (hside : limList s (!b) = la :: rest)
    (hL : getLimit s la = some L)
    (hfront : L.front = some aA)
    (hA : getOrder s aA = some A)
    (hnext : A.next = some aB)
    (hB : getOrder s aB = some B)
    (hApos : 0 < A.qty)
    (h1 : A.qty ≤ q)
    (h2 : q < A.qty + B.qty)
    (h3 : q < L.Volume)
    (h4 : q < getTotalVolume s (!b))
    (hbound : aA < s.mem.nextOrderA) :
    (PlaceMarketOrder s b q).1 = Res.ok ∧
    getLimit (PlaceMarketOrder s b q).2 la = some ⟨L.Price, L.Volume - q, some aB, L.rear⟩ ∧
    getOrder (PlaceMarketOrder s b q).2 aB = some ⟨B.id, A.qty + B.qty - q, B.timestamp, B.next⟩ ∧
    0 < A.qty + B.qty - q ∧
    (PlaceMarketOrder s b q).2.ob.Price = L.Price ∧
    limList (PlaceMarketOrder s b q).2 (!b) = la :: rest := by
  have hq0 : ¬ q ≤ 0 := not_le.mpr (lt_of_lt_of_le hApos h1)
  have hrem : 0 < A.qty + B.qty - q := by linarith
  have hmain : PlaceMarketOrder s b q = marketSweep (!b) q s := by
    cases b with
    | true =>
      simp only [Bool.not_true] at h4
      simp [PlaceMarketOrder, hq0, not_le.mpr h4]
    | false =>
      simp only [Bool.not_false] at h4
      simp [PlaceMarketOrder, hq0, not_le.mpr h4]
  obtain ⟨r1, r2, r3, r4, r5⟩ :=
    marketSweep_fifo s (!b) q la aA aB rest L A B hside hL hfront hA hnext hB h1 h2 h3 hbound
  rw [hmain]
  exact ⟨r1, r2, r3, hrem, r4, r5⟩

/-- The book of scenario C: Initialize(100), then two buys at 99 (qty 5
then qty 3) resting in FIFO order in the single bid level. -/
def scnC2 : State := (PlaceLimitOrder scnA1 true 99 3).2

/-- Witness for C9 at scenario C with a market sell of quantity 6. -/
theorem c9_fifo_witness :
    (limList scnC2 (!false) = 1 :: [] ∧
     getLimit scnC2 1 = some ⟨99, 8, some 1, some 2⟩ ∧
     getOrder scnC2 1 = some ⟨1, 5, 1, some 2⟩ ∧
     getOrder scnC2 2 = some ⟨2, 3, 2, none⟩ ∧
     (0:Rat) < 5 ∧ (5:Rat) ≤ 6 ∧ (6:Rat) < 5 + 3 ∧ (6:Rat) < 8 ∧
     6 < getTotalVolume scnC2 (!false) ∧ 1 < scnC2.mem.nextOrderA) ∧
    ((PlaceMarketOrder scnC2 false 6).1 = Res.ok ∧
     getLimit (PlaceMarketOrder scnC2 false 6).2 1 = some ⟨99, 8 - 6, some 2, some 2⟩ ∧
     getOrder (PlaceMarketOrder scnC2 false 6).2 2 = some ⟨2, 5 + 3 - 6, 2, none⟩ ∧
     (0:Rat) < 5 + 3 - 6 ∧
     (PlaceMarketOrder scnC2 false 6).2.ob.Price = 99 ∧
     limList (PlaceMarketOrder scnC2 false 6).2 (!false) = 1 :: []) :=
  ⟨⟨by decide, by decide, by decide, by decide, by decide, by decide, by decide, by decide,
    by decide, by decide⟩,
   c9_fifo scnC2 false 6 1 1 2 [] ⟨99, 8, some 1, some 2⟩ ⟨1, 5, 1, some 2⟩ ⟨2, 3, 2, none⟩
     (by decide) (by decide) (by decide) (by decide) (by decide) (by decide) (by decide)
     (by decide) (by decide) (by decide) (by decide) (by decide)⟩





theorem insertSorted_perm (le : Nat → Nat → Bool) (a : Nat) (l : List Nat) :
    List.Perm (insertSorted le a l) (a :: l) := by
  induction l with
  | nil => rfl
  | cons b bs ih =>
    by_cases h : le a b
    · simp [insertSorted, h]
    · simp only [insertSorted, h, if_false, Bool.false_eq_true]
      exact (ih.cons b).trans (List.Perm.swap a b bs)

theorem insSort_perm (le : Nat → Nat → Bool) (l : List Nat) : List.Perm (insSort le l) l := by
  induction l with
  | nil => rfl
  | cons a xs ih => exact (insertSorted_perm le a (insSort le xs)).trans (ih.cons a)

theorem sortBuys_perm (m : Mem) (xs : List Nat) : List.Perm (sortBuys m xs) xs := insSort_perm _ xs

theorem sortSells_perm (m : Mem) (xs : List Nat) : List.Perm (sortSells m xs) xs := insSort_perm _ xs

/-- With a nonempty list the slice-surgery default is never consulted. -/
theorem getLastD_eq_getLast : ∀ (l : List Nat) (d : Nat) (h : l ≠ []), l.getLastD d = l.getLast h := by
  intro l
  induction l with
  | nil => intro d h; exact absurd rfl h
  | cons a tl ih =>
    intro d h
    cases tl with
    | nil => rfl
    | cons b t =>
      rw [List.getLastD_cons, ih a (by simp)]
      exact (List.getLast_cons (by simp)).symm

theorem removeAt_perm : ∀ (xs : List Nat) (pos : Nat), pos < xs.length →
    List.Perm (removeAt xs pos) (xs.eraseIdx pos) := by
  intro xs
  induction xs with
  | nil => intro pos h; simp at h
  | cons x tl ih =>
    intro pos hpos
    cases pos with
    | zero =>
      cases tl with
      | nil => simp [removeAt]
      | cons y ys =>
        have hne : (y :: ys) ≠ [] := by simp
        simp only [removeAt, List.eraseIdx]
        rw [getLastD_eq_getLast (x :: y :: ys) 0 (by simp)]
        have hg : (x :: y :: ys).getLast (by simp) = (y :: ys).getLast hne :=
          List.getLast_cons hne
        rw [hg]
        have hset : ((x :: y :: ys).set 0 ((y :: ys).getLast hne)) =
            ((y :: ys).getLast hne) :: y :: ys := rfl
        rw [hset]
        have hdr : (((y :: ys).getLast hne) :: y :: ys).dropLast =
            ((y :: ys).getLast hne) :: (y :: ys).dropLast := by
          simp [List.dropLast]
        rw [hdr]
        have step1 : List.Perm (((y :: ys).getLast hne) :: (y :: ys).dropLast)
            ((y :: ys).dropLast ++ [(y :: ys).getLast hne]) := by
          have := @List.perm_append_comm _ [(y :: ys).getLast hne] ((y :: ys).dropLast)
          simpa using this
        have step2 : (y :: ys).dropLast ++ [(y :: ys).getLast hne] = y :: ys :=
          List.dropLast_concat_getLast hne
        rw [step2] at step1
        exact step1
    | succ p =>
      have htl : tl ≠ [] := by
        intro h; subst h; simp at hpos
      have hp : p < tl.length := by simpa using hpos
      simp only [removeAt, List.eraseIdx]
      rw [getLastD_eq_getLast (x :: tl) 0 (by simp), List.getLast_cons htl]
      have hset : ((x :: tl).set (p+1) (tl.getLast htl)) = x :: (tl.set p (tl.getLast htl)) := rfl
      rw [hset]
      have hne2 : tl.set p (tl.getLast htl) ≠ [] := by
        intro h
        have := congrArg List.length h
        simp at this
        exact htl this
      have hdr : (x :: (tl.set p (tl.getLast htl))).dropLast =
          x :: (tl.set p (tl.getLast htl)).dropLast := by
        cases hsp : tl.set p (tl.getLast htl) with
        | nil => exact absurd hsp hne2
        | cons z zs => simp [List.dropLast]
      rw [hdr]
      have hrm : removeAt tl p = (tl.set p (tl.getLast htl)).dropLast := by
        unfold removeAt
        rw [getLastD_eq_getLast tl 0 htl]
      rw [← hrm]
      exact (ih p hp).cons x

theorem removeAt_length (xs : List Nat) (pos : Nat) (h : pos < xs.length) :
    (removeAt xs pos).length = xs.length - 1 := by
  rw [(removeAt_perm xs pos h).length_eq, List.length_eraseIdx_of_lt h]

theorem alookup_mem {κ β : Type} [DecidableEq κ] {l : List (κ × β)} {k : κ} {v : β}
    (h : alookup l k = some v) : (k, v) ∈ l := by
  induction l with
  | nil => simp [alookup] at h
  | cons kv rest ih =>
    obtain ⟨k0, v0⟩ := kv
    by_cases hk : k0 = k
    · subst hk
      simp [alookup] at h
      simp [h]
    · simp [alookup, hk] at h
      exact List.mem_cons_of_mem _ (ih h)

theorem mem_aupdate {κ β : Type} [DecidableEq κ] {l : List (κ × β)} {k : κ} {v : β} {p : κ × β}
    (hp : p ∈ aupdate l k v) : p ∈ l ∨ p = (k, v) := by
  induction l with
  | nil => simp [aupdate] at hp; simp [hp]
  | cons kv rest ih =>
    obtain ⟨k0, v0⟩ := kv
    by_cases hk : k0 = k
    · subst hk
      simp [aupdate] at hp
      rcases hp with h | h
      · right; simp [h]
      · left; exact List.mem_cons_of_mem _ h
    · simp [aupdate, hk] at hp
      rcases hp with h | h
      · left; simp [h]
      · rcases ih h with h2 | h2
        · left; exact List.mem_cons_of_mem _ h2
        · right; exact h2

theorem alookup_append_ne {κ β : Type} [DecidableEq κ] (l : List (κ × β)) (k k2 : κ) (v : β)
    (h : k ≠ k2) : alookup (l ++ [(k2, v)]) k = alookup l k := by
  induction l with
  | nil => simp [alookup, Ne.symm h]
  | cons kv rest ih =>
    obtain ⟨k0, v0⟩ := kv
    by_cases hk : k0 = k
    · simp [alookup, hk]
    · simp [alookup, hk, ih]

theorem alookup_aerase_ne {κ β : Type} [DecidableEq κ] (l : List (κ × β)) (k k2 : κ)
    (h : k ≠ k2) : alookup (aerase l k2) k = alookup l k := by
  induction l with
  | nil => rfl
  | cons kv rest ih =>
    obtain ⟨k0, v0⟩ := kv
    by_cases hk : k0 = k2
    · subst hk
      simp [aerase, alookup, Ne.symm h, ih]
    · by_cases hk2 : k0 = k
      · simp [aerase, hk, alookup, hk2, h]
      · simp [aerase, hk, alookup, hk2, ih]

/-- The price map of one side. -/
def mapOf (s : State) (b : Bool) : List (Rat × Nat) :=
  if b then s.ob.buyLimitsMap else s.ob.sellLimitsMap

/-- Well-formedness of one side: the slice is nonempty, holds at most one
level per price, and every listed address is an allocated limit indexed
by its price in the side map. -/
def SideOK (s : State) (b : Bool) : Prop :=
  limList s b ≠ [] ∧
  ((limList s b).map (priceOf s.mem)).Nodup ∧
  ∀ a ∈ limList s b, a < s.mem.nextLimitA ∧ alookup (mapOf s b) (priceOf s.mem a) = some a

/-- The reachability invariant behind C8: heap bounds plus
well-formedness of both sides. -/
def Inv (s : State) : Prop := MemBounds s ∧ SideOK s true ∧ SideOK s false

theorem SideOK_congr {s s' : State} (b : Bool)
    (hlist : limList s' b = limList s b)
    (hmap : mapOf s' b = mapOf s b)
    (hprice : ∀ a ∈ limList s b, priceOf s'.mem a = priceOf s.mem a)
    (hcnt : s.mem.nextLimitA ≤ s'.mem.nextLimitA)
    (h : SideOK s b) : SideOK s' b := by
  obtain ⟨h1, h2, h3⟩ := h
  refine ⟨by rw [hlist]; exact h1, ?_, ?_⟩
  · rw [hlist]
    have : (limList s b).map (priceOf s'.mem) = (limList s b).map (priceOf s.mem) :=
      List.map_congr_left fun a ha => hprice a ha
    rw [this]
    exact h2
  · intro a ha
    rw [hlist] at ha
    obtain ⟨hb, hm⟩ := h3 a ha
    exact ⟨lt_of_lt_of_le hb hcnt, by rw [hmap, hprice a ha]; exact hm⟩

theorem priceOf_setOrder (s : State) (a : Nat) (o : Order) (x : Nat) :
    priceOf (setOrder s a o).mem x = priceOf s.mem x := rfl

theorem priceOf_setLimit {s : State} {la : Nat} {l : Limit} (l' : Limit)
    (hl : getLimit s la = some l) (hP : l'.Price = l.Price) (x : Nat) :
    priceOf (setLimit s la l').mem x = priceOf s.mem x := by
  unfold getLimit at hl
  by_cases hx : la = x
  · subst hx
    unfold priceOf setLimit
    simp only []
    rw [alookup_aupdate_self, hl]
    simp [hP]
  · unfold priceOf setLimit
    simp only []
    rw [alookup_aupdate_ne _ _ _ _ hx]

theorem priceOf_newLimit {s : State} (P : Rat) {x : Nat} (hx : x < s.mem.nextLimitA) :
    priceOf ((newLimit s P).2).mem x = priceOf s.mem x := by
  unfold priceOf newLimit
  simp only []
  rw [alookup_append_ne _ _ _ _ (Nat.ne_of_lt hx)]

theorem priceOf_addOrder (s : State) (la oa : Nat) (x : Nat) :
    priceOf (Limit.addOrder s la oa).mem x = priceOf s.mem x := by
  unfold Limit.addOrder
  cases hl : getLimit s la with
  | none => rfl
  | some l =>
    cases ho : getOrder s oa with
    | none => rfl
    | some o =>
      dsimp only []
      cases hr : l.rear with
      | some r =>
        dsimp only []
        cases hro : getOrder s r with
        | some ro =>
          dsimp only []
          exact priceOf_setLimit { l with rear := some oa, Volume := l.Volume + o.qty }
            (hl : getLimit (setOrder s r { ro with next := some oa }) la = some l) rfl x
        | none =>
          dsimp only []
          exact priceOf_setLimit { l with rear := some oa, Volume := l.Volume + o.qty } hl rfl x
      | none =>
        dsimp only []
        exact priceOf_setLimit
          { l with rear := some oa, front := some oa, Volume := l.Volume + o.qty } hl rfl x

theorem addOrder_ob (s : State) (la oa : Nat) : (Limit.addOrder s la oa).ob = s.ob := by
  unfold Limit.addOrder
  cases hl : getLimit s la with
  | none => rfl
  | some l =>
    cases ho : getOrder s oa with
    | none => rfl
    | some o =>
      dsimp only []
      cases hr : l.rear with
      | some r =>
        dsimp only []
        cases hro : getOrder s r with
        | some ro => rfl
        | none => rfl
      | none => rfl

theorem addOrder_counters (s : State) (la oa : Nat) :
    (Limit.addOrder s la oa).mem.nextLimitA = s.mem.nextLimitA ∧
    (Limit.addOrder s la oa).mem.nextOrderA = s.mem.nextOrderA ∧
    (Limit.addOrder s la oa).mem.nextId = s.mem.nextId := by
  unfold Limit.addOrder
  cases hl : getLimit s la with
  | none => exact ⟨rfl, rfl, rfl⟩
  | some l =>
    cases ho : getOrder s oa with
    | none => exact ⟨rfl, rfl, rfl⟩
    | some o =>
      dsimp only []
      cases hr : l.rear with
      | some r =>
        dsimp only []
        cases hro : getOrder s r with
        | some ro => exact ⟨rfl, rfl, rfl⟩
        | none => exact ⟨rfl, rfl, rfl⟩
      | none => exact ⟨rfl, rfl, rfl⟩

theorem obnd_mono {v : Option Nat} {n n2 : Nat} (h : n ≤ n2) (hv : obnd v n) : obnd v n2 := by
  cases v with
  | none => trivial
  | some x => exact lt_of_lt_of_le hv h

theorem MemBounds_of_mem_eq {s s' : State} (h : s'.mem = s.mem) (hb : MemBounds s) :
    MemBounds s' := by
  unfold MemBounds at hb ⊢
  rw [h]
  exact hb

theorem MemBounds.order {s : State} {a : Nat} {o : Order} (hb : MemBounds s)
    (h : getOrder s a = some o) :
    a < s.mem.nextOrderA ∧ o.id < s.mem.nextId ∧ obnd o.next s.mem.nextOrderA :=
  hb.1 _ (alookup_mem h)

theorem MemBounds.limit {s : State} {a : Nat} {l : Limit} (hb : MemBounds s)
    (h : getLimit s a = some l) :
    a < s.mem.nextLimitA ∧ obnd l.front s.mem.nextOrderA ∧ obnd l.rear s.mem.nextOrderA :=
  hb.2 _ (alookup_mem h)

theorem MemBounds_setOrder {s : State} {a : Nat} {o : Order}
    (ha : a < s.mem.nextOrderA) (hid : o.id < s.mem.nextId)
    (hnx : obnd o.next s.mem.nextOrderA) (hb : MemBounds s) :
    MemBounds (setOrder s a o) := by
  obtain ⟨hO, hL⟩ := hb
  constructor
  · intro p hp
    rcases mem_aupdate hp with h | h
    · exact hO p h
    · subst h
      exact ⟨ha, hid, hnx⟩
  · intro p hp
    exact hL p hp

theorem MemBounds_setLimit {s : State} {a : Nat} {l : Limit}
    (ha : a < s.mem.nextLimitA) (hf : obnd l.front s.mem.nextOrderA)
    (hr : obnd l.rear s.mem.nextOrderA) (hb : MemBounds s) :
    MemBounds (setLimit s a l) := by
  obtain ⟨hO, hL⟩ := hb
  constructor
  · intro p hp
    exact hO p hp
  · intro p hp
    rcases mem_aupdate hp with h | h
    · exact hL p h
    · subst h
      exact ⟨ha, hf, hr⟩

theorem MemBounds_newOrder (s : State) (q : Rat) (hb : MemBounds s) :
    MemBounds (newOrder s q).2 := by
  obtain ⟨hO, hL⟩ := hb
  constructor
  · intro p hp
    rcases List.mem_append.mp hp with h | h
    · obtain ⟨h1, h2, h3⟩ := hO p h
      exact ⟨Nat.lt_succ_of_lt h1, Nat.lt_succ_of_lt h2, obnd_mono (Nat.le_succ _) h3⟩
    · simp at h
      subst h
      exact ⟨Nat.lt_succ_self _, Nat.lt_succ_self _, trivial⟩
  · intro p hp
    obtain ⟨h1, h2, h3⟩ := hL p hp
    exact ⟨h1, obnd_mono (Nat.le_succ _) h2, obnd_mono (Nat.le_succ _) h3⟩

theorem MemBounds_newLimit (s : State) (P : Rat) (hb : MemBounds s) :
    MemBounds (newLimit s P).2 := by
  obtain ⟨hO, hL⟩ := hb
  constructor
  · intro p hp
    exact hO p hp
  · intro p hp
    rcases List.mem_append.mp hp with h | h
    · obtain ⟨h1, h2, h3⟩ := hL p h
      exact ⟨Nat.lt_succ_of_lt h1, h2, h3⟩
    · simp at h
      subst h
      exact ⟨Nat.lt_succ_self _, trivial, trivial⟩

theorem MemBounds_addOrder {s : State} {la oa : Nat} (hoa : oa < s.mem.nextOrderA)
    (hb : MemBounds s) : MemBounds (Limit.addOrder s la oa) := by
  unfold Limit.addOrder
  cases hl : getLimit s la with
  | none => exact hb
  | some l =>
    cases ho : getOrder s oa with
    | none => exact hb
    | some o =>
      dsimp only []
      cases hr : l.rear with
      | some r =>
        dsimp only []
        cases hro : getOrder s r with
        | some ro =>
          obtain ⟨hr1, hr2, _⟩ := hb.order hro
          obtain ⟨hla, hlf, _⟩ := hb.limit hl
          have hb2 : MemBounds (setOrder s r { ro with next := some oa }) :=
            MemBounds_setOrder hr1 hr2 (by exact hoa) hb
          exact MemBounds_setLimit (by exact hla) (by exact hlf) (by exact hoa) hb2
        | none =>
          obtain ⟨hla, hlf, _⟩ := hb.limit hl
          exact MemBounds_setLimit hla hlf (by exact hoa) hb
      | none =>
        obtain ⟨hla, _, _⟩ := hb.limit hl
        exact MemBounds_setLimit hla (by exact hoa) (by exact hoa) hb


/-- Side-indexed re-sort, as invoked by `addLimit` and `deleteLimit`. -/
def sortSide (m : Mem) (b : Bool) : List Nat → List Nat :=
  if b then sortBuys m else sortSells m

theorem sortSide_perm (m : Mem) (b : Bool) (xs : List Nat) :
    List.Perm (sortSide m b xs) xs := by
  cases b with
  | true => exact sortBuys_perm m xs
  | false => exact sortSells_perm m xs

theorem addLimit_list_same (s : State) (b : Bool) (la : Nat) :
    limList (addLimit s b la) b = sortSide s.mem b (limList s b ++ [la]) := by
  cases b with
  | true => rfl
  | false => rfl

theorem addLimit_map_same (s : State) (b : Bool) (la : Nat) :
    mapOf (addLimit s b la) b = aupdate (mapOf s b) (priceOf s.mem la) la := by
  cases b with
  | true => rfl
  | false => rfl

theorem addLimit_list_other (s : State) (b b2 : Bool) (la : Nat) (h : b2 ≠ b) :
    limList (addLimit s b la) b2 = limList s b2 := by
  cases b with
  | true => cases b2 with
    | true => exact absurd rfl h
    | false => rfl
  | false => cases b2 with
    | true => rfl
    | false => exact absurd rfl h

theorem addLimit_map_other (s : State) (b b2 : Bool) (la : Nat) (h : b2 ≠ b) :
    mapOf (addLimit s b la) b2 = mapOf s b2 := by
  cases b with
  | true => cases b2 with
    | true => exact absurd rfl h
    | false => rfl
  | false => cases b2 with
    | true => rfl
    | false => exact absurd rfl h

theorem addLimit_mem (s : State) (b : Bool) (la : Nat) : (addLimit s b la).mem = s.mem := by
  cases b with
  | true => rfl
  | false => rfl

theorem deleteLimit_list_same (s : State) (b : Bool) (pos : Nat) (P : Rat) :
    limList (deleteLimit s b pos P) b = sortSide s.mem b (removeAt (limList s b) pos) := by
  cases b with
  | true => rfl
  | false => rfl

theorem deleteLimit_map_same (s : State) (b : Bool) (pos : Nat) (P : Rat) :
    mapOf (deleteLimit s b pos P) b = aerase (mapOf s b) P := by
  cases b with
  | true => rfl
  | false => rfl

theorem deleteLimit_list_other (s : State) (b b2 : Bool) (pos : Nat) (P : Rat) (h : b2 ≠ b) :
    limList (deleteLimit s b pos P) b2 = limList s b2 := by
  cases b with
  | true => cases b2 with
    | true => exact absurd rfl h
    | false => rfl
  | false => cases b2 with
    | true => rfl
    | false => exact absurd rfl h

theorem deleteLimit_map_other (s : State) (b b2 : Bool) (pos : Nat) (P : Rat) (h : b2 ≠ b) :
    mapOf (deleteLimit s b pos P) b2 = mapOf s b2 := by
  cases b with
  | true => cases b2 with
    | true => exact absurd rfl h
    | false => rfl
  | false => cases b2 with
    | true => rfl
    | false => exact absurd rfl h

theorem deleteLimit_mem (s : State) (b : Bool) (pos : Nat) (P : Rat) :
    (deleteLimit s b pos P).mem = s.mem := by
  cases b with
  | true => rfl
  | false => rfl

theorem deleteLimit_price (s : State) (b : Bool) (pos : Nat) (P : Rat) :
    (deleteLimit s b pos P).ob.Price = s.ob.Price := by
  cases b with
  | true => rfl
  | false => rfl

theorem SideOK_addOrder {s : State} (la oa : Nat) (b : Bool) (h : SideOK s b) :
    SideOK (Limit.addOrder s la oa) b := by
  refine SideOK_congr b ?_ ?_ (fun a _ => priceOf_addOrder s la oa a) ?_ h
  · unfold limList
    rw [addOrder_ob]
  · unfold mapOf
    rw [addOrder_ob]
  · rw [(addOrder_counters s la oa).1]

theorem SideOK_addLimit_same {s : State} {b : Bool} {la : Nat}
    (hla : la < s.mem.nextLimitA)
    (hnone : alookup (mapOf s b) (priceOf s.mem la) = none)
    (h2 : ((limList s b).map (priceOf s.mem)).Nodup)
    (h3 : ∀ a ∈ limList s b, a < s.mem.nextLimitA ∧
      alookup (mapOf s b) (priceOf s.mem a) = some a) :
    SideOK (addLimit s b la) b := by
  have hperm : List.Perm (sortSide s.mem b (limList s b ++ [la])) (limList s b ++ [la]) :=
    sortSide_perm s.mem b _
  have hPnotin : ∀ a ∈ limList s b, priceOf s.mem a ≠ priceOf s.mem la := by
    intro a ha heq
    have := (h3 a ha).2
    rw [heq, hnone] at this
    exact Option.noConfusion this
  refine ⟨?_, ?_, ?_⟩
  · rw [addLimit_list_same]
    intro hnil
    have := hperm.length_eq
    rw [hnil] at this
    simp at this
  · rw [addLimit_list_same]
    have hmem : (addLimit s b la).mem = s.mem := addLimit_mem s b la
    rw [hmem]
    have := (hperm.map (priceOf s.mem)).nodup_iff
    rw [this]
    rw [List.map_append]
    rw [List.nodup_append]
    refine ⟨h2, List.nodup_singleton _, ?_⟩
    intro x hx hx2
    simp at hx2
    obtain ⟨a, ha, hpa⟩ := List.mem_map.mp hx
    exact hPnotin a ha (by rw [hpa, hx2])
  · intro a ha
    rw [addLimit_list_same] at ha
    rw [addLimit_mem]
    rw [addLimit_map_same]
    rcases List.mem_append.mp (hperm.mem_iff.mp ha) with hmem | hmem
    · obtain ⟨hb2, hm2⟩ := h3 a hmem
      refine ⟨hb2, ?_⟩
      rw [alookup_aupdate_ne _ _ _ _ (fun heq => hPnotin a hmem heq.symm)]
      exact hm2
    · simp at hmem
      subst hmem
      exact ⟨hla, alookup_aupdate_self _ _ _⟩

theorem SideOK_addLimit_other {s : State} {b b2 : Bool} {la : Nat} (hne : b2 ≠ b)
    (h : SideOK s b2) : SideOK (addLimit s b la) b2 := by
  refine SideOK_congr b2 (addLimit_list_other s b b2 la hne) (addLimit_map_other s b b2 la hne)
    (fun x _ => by rw [addLimit_mem]) (by rw [addLimit_mem]) h

theorem eraseIdx_map_comm : ∀ (l : List Nat) (f : Nat → Rat) (pos : Nat),
    (l.eraseIdx pos).map f = (l.map f).eraseIdx pos := by
  intro l
  induction l with
  | nil => intro f pos; rfl
  | cons x tl ih =>
    intro f pos
    cases pos with
    | zero => rfl
    | succ p => simp [List.eraseIdx, ih]

theorem nodup_eraseIdx_ne : ∀ (l : List Rat) (pos : Nat) (h : pos < l.length),
    l.Nodup → ∀ x ∈ l.eraseIdx pos, x ≠ l.get ⟨pos, h⟩ := by
  intro l
  induction l with
  | nil => intro pos h; simp at h
  | cons y tl ih =>
    intro pos hpos hnd x hx
    cases pos with
    | zero =>
      simp only [List.eraseIdx] at hx
      intro heq
      rw [show (y :: tl).get ⟨0, hpos⟩ = y from rfl] at heq
      subst heq
      exact (List.nodup_cons.mp hnd).1 hx
    | succ p =>
      simp only [List.eraseIdx] at hx
      have hp : p < tl.length := by simpa using hpos
      rw [show (y :: tl).get ⟨p+1, hpos⟩ = tl.get ⟨p, hp⟩ from rfl]
      rcases List.mem_cons.mp hx with h | h
      · subst h
        intro heq
        exact (List.nodup_cons.mp hnd).1 (heq ▸ List.get_mem tl p hp)
      · exact ih p hp (List.nodup_cons.mp hnd).2 x h

theorem SideOK_deleteLimit {s : State} {b : Bool} {pos : Nat} {P : Rat}
    (hpos : pos < (limList s b).length)
    (hP : priceOf s.mem ((limList s b).get ⟨pos, hpos⟩) = P)
    (hlen : 1 < (limList s b).length)
    (h : SideOK s b) : SideOK (deleteLimit s b pos P) b := by
  obtain ⟨h1, h2, h3⟩ := h
  have hperm : List.Perm (sortSide s.mem b (removeAt (limList s b) pos))
      ((limList s b).eraseIdx pos) :=
    (sortSide_perm s.mem b _).trans (removeAt_perm _ pos hpos)
  refine ⟨?_, ?_, ?_⟩
  · rw [deleteLimit_list_same]
    intro hnil
    have := hperm.length_eq
    rw [hnil, List.length_eraseIdx_of_lt hpos] at this
    simp at this
    omega
  · rw [deleteLimit_list_same, deleteLimit_mem]
    rw [(hperm.map (priceOf s.mem)).nodup_iff]
    rw [eraseIdx_map_comm]
    exact h2.sublist (List.eraseIdx_sublist _ pos)
  · intro a ha
    rw [deleteLimit_list_same] at ha
    rw [deleteLimit_mem, deleteLimit_map_same]
    have hmem : a ∈ (limList s b).eraseIdx pos := hperm.mem_iff.mp ha
    have hmem2 : a ∈ limList s b := (List.eraseIdx_sublist _ pos).mem hmem
    obtain ⟨hb2, hm2⟩ := h3 a hmem2
    refine ⟨hb2, ?_⟩
    have hne : priceOf s.mem a ≠ P := by
      have hin : priceOf s.mem a ∈ ((limList s b).map (priceOf s.mem)).eraseIdx pos := by
        rw [← eraseIdx_map_comm]
        exact List.mem_map.mpr ⟨a, hmem, rfl⟩
      have hposm : pos < ((limList s b).map (priceOf s.mem)).length := by
        rw [List.length_map]; exact hpos
      have := nodup_eraseIdx_ne _ pos hposm h2 _ hin
      rw [show ((limList s b).map (priceOf s.mem)).get ⟨pos, hposm⟩
          = priceOf s.mem ((limList s b).get ⟨pos, hpos⟩) by simp] at this
      rw [hP] at this
      exact this
    rw [alookup_aerase_ne _ _ _ hne]
    exact hm2

theorem SideOK_deleteLimit_other {s : State} {b b2 : Bool} {pos : Nat} {P : Rat} (hne : b2 ≠ b)
    (h : SideOK s b2) : SideOK (deleteLimit s b pos P) b2 := by
  refine SideOK_congr b2 (deleteLimit_list_other s b b2 pos P hne)
    (deleteLimit_map_other s b b2 pos P hne)
    (fun x _ => by rw [deleteLimit_mem]) (by rw [deleteLimit_mem]) h


theorem canDeleteLimit_iff (s : State) (b : Bool) :
    canDeleteLimit s b ↔ 1 < (limList s b).length := by
  cases b with
  | true => exact Iff.rfl
  | false => exact Iff.rfl

theorem Inv_newOrder (s : State) (q : Rat) (h : Inv s) : Inv (newOrder s q).2 := by
  obtain ⟨hb, hbuy, hsell⟩ := h
  refine ⟨MemBounds_newOrder s q hb, ?_, ?_⟩
  · exact SideOK_congr true rfl rfl (fun a _ => rfl) (le_refl _) hbuy
  · exact SideOK_congr false rfl rfl (fun a _ => rfl) (le_refl _) hsell

theorem Inv_setPrice (s : State) (x : Rat) (h : Inv s) :
    Inv { s with ob := { s.ob with Price := x } } := by
  obtain ⟨hb, hbuy, hsell⟩ := h
  refine ⟨MemBounds_of_mem_eq rfl hb, ?_, ?_⟩
  · exact SideOK_congr true rfl rfl (fun a _ => rfl) (le_refl _) hbuy
  · exact SideOK_congr false rfl rfl (fun a _ => rfl) (le_refl _) hsell

theorem Inv_deleteLimit_at {s : State} {b : Bool} {pos : Nat} {P : Rat}
    (hpos : pos < (limList s b).length)
    (hP : priceOf s.mem ((limList s b).get ⟨pos, hpos⟩) = P)
    (hlen : 1 < (limList s b).length)
    (h : Inv s) : Inv (deleteLimit s b pos P) := by
  obtain ⟨hb, hbuy, hsell⟩ := h
  refine ⟨MemBounds_of_mem_eq (deleteLimit_mem s b pos P) hb, ?_, ?_⟩
  · cases b with
    | true => exact SideOK_deleteLimit hpos hP hlen hbuy
    | false => exact SideOK_deleteLimit_other (by simp) hbuy
  · cases b with
    | true => exact SideOK_deleteLimit_other (by simp) hsell
    | false => exact SideOK_deleteLimit hpos hP hlen hsell

theorem headPrice_match (s : State) (b : Bool) :
    headPrice s b = match limList s b with | [] => 0 | a :: _ => priceOf s.mem a := rfl

theorem headVolume_match (s : State) (b : Bool) :
    headVolume s b = match limList s b with | [] => 0 | a :: _ => volOf s.mem a := rfl

theorem Inv_deleteLimit_head {s : State} {b : Bool} {a : Nat} {tl : List Nat}
    (hl : limList s b = a :: tl) (hlen : 1 < (limList s b).length) (h : Inv s) :
    Inv (deleteLimit s b 0 (priceOf s.mem a)) := by
  have hpos : 0 < (limList s b).length := by omega
  apply Inv_deleteLimit_at hpos ?_ hlen h
  have hget : (limList s b).get ⟨0, hpos⟩ = a := by
    rw [List.get_of_eq hl]
    rfl
  rw [hget]

theorem Inv_cleanupTop (s : State) (h : Inv s) : Inv (cleanupTop s) := by
  unfold cleanupTop
  by_cases h1 : canDeleteLimit s true ∧ headVolume s true = 0
  · rw [if_pos h1]
    have hlen : 1 < (limList s true).length := (canDeleteLimit_iff s true).mp h1.1
    obtain ⟨a, tl, hl⟩ : ∃ a tl, limList s true = a :: tl := by
      cases hx : limList s true with
      | nil => rw [hx] at hlen; simp at hlen
      | cons a tl => exact ⟨a, tl, rfl⟩
    have hhp : headPrice s true = priceOf s.mem a := by
      rw [headPrice_match, hl]
    rw [hhp]
    exact Inv_deleteLimit_head hl hlen h
  · rw [if_neg h1]
    by_cases h2 : canDeleteLimit s false ∧ headVolume s false = 0
    · rw [if_pos h2]
      have hlen : 1 < (limList s false).length := (canDeleteLimit_iff s false).mp h2.1
      obtain ⟨a, tl, hl⟩ : ∃ a tl, limList s false = a :: tl := by
        cases hx : limList s false with
        | nil => rw [hx] at hlen; simp at hlen
        | cons a tl => exact ⟨a, tl, rfl⟩
      have hhp : headPrice s false = priceOf s.mem a := by
        rw [headPrice_match, hl]
      rw [hhp]
      exact Inv_deleteLimit_head hl hlen h
    · rw [if_neg h2]
      exact h

theorem Inv_insert_new {s1 : State} (b : Bool) (P : Rat) (oa : Nat)
    (hoa : oa < s1.mem.nextOrderA)
    (hnone : alookup (mapOf s1 b) P = none)
    (h : Inv s1) :
    Inv (addLimit (Limit.addOrder (newLimit s1 P).2 s1.mem.nextLimitA oa) b
      s1.mem.nextLimitA) := by
  obtain ⟨hb, hbuy, hsell⟩ := h
  have hA : MemBounds (newLimit s1 P).2 := MemBounds_newLimit s1 P hb
  have hPla : priceOf (newLimit s1 P).2.mem s1.mem.nextLimitA = P := by
    unfold priceOf newLimit
    simp only []
    rw [alookup_append_none _ (alookup_eq_none fun p hp => Nat.ne_of_lt (hb.2 p hp).1)]
    simp [alookup]
  have hSideA : ∀ b2, SideOK s1 b2 → SideOK (newLimit s1 P).2 b2 := by
    intro b2 hs
    exact @SideOK_congr s1 _ b2 rfl rfl
      (fun a ha => priceOf_newLimit P (hs.2.2 a ha).1) (Nat.le_succ _) hs
  set sA := (newLimit s1 P).2 with hsA
  set la := s1.mem.nextLimitA with hla
  set sB := Limit.addOrder sA la oa with hsB
  have hBb : MemBounds sB := MemBounds_addOrder (by exact hoa) hA
  have hSideB : ∀ b2, SideOK s1 b2 → SideOK sB b2 := by
    intro b2 hs
    exact SideOK_addOrder la oa b2 (hSideA b2 hs)
  have hlistB : ∀ b2, limList sB b2 = limList s1 b2 := by
    intro b2
    unfold limList
    rw [hsB, addOrder_ob]
    rfl
  have hmapB : ∀ b2, mapOf sB b2 = mapOf s1 b2 := by
    intro b2
    unfold mapOf
    rw [hsB, addOrder_ob]
    rfl
  have hcntB : sB.mem.nextLimitA = s1.mem.nextLimitA + 1 := by
    rw [hsB, (addOrder_counters sA la oa).1]
    rfl
  have hpriceB : priceOf sB.mem la = P := by
    rw [hsB, priceOf_addOrder]
    exact hPla
  have hpriceB_old : ∀ a, a < s1.mem.nextLimitA → priceOf sB.mem a = priceOf s1.mem a := by
    intro a ha
    rw [hsB, priceOf_addOrder]
    exact priceOf_newLimit P ha
  refine ⟨?_, ?_, ?_⟩
  · exact MemBounds_of_mem_eq (addLimit_mem sB b la) hBb
  · cases b with
    | true =>
      have hnone2 : alookup (mapOf sB true) (priceOf sB.mem la) = none := by
        rw [hmapB true, hpriceB]
        exact hnone
      apply SideOK_addLimit_same (by omega) hnone2 ?_ ?_
      · rw [hlistB true]
        have heq : (limList s1 true).map (priceOf sB.mem) = (limList s1 true).map (priceOf s1.mem) :=
          List.map_congr_left fun a ha => hpriceB_old a (hbuy.2.2 a ha).1
        rw [heq]
        exact hbuy.2.1
      · intro a ha
        rw [hlistB true] at ha
        obtain ⟨hb2, hm2⟩ := hbuy.2.2 a ha
        rw [hmapB true, hpriceB_old a hb2]
        exact ⟨by omega, hm2⟩
    | false =>
      apply SideOK_addLimit_other (by simp)
      exact hSideB true hbuy
  · cases b with
    | true =>
      apply SideOK_addLimit_other (by simp)
      exact hSideB false hsell
    | false =>
      have hnone2 : alookup (mapOf sB false) (priceOf sB.mem la) = none := by
        rw [hmapB false, hpriceB]
        exact hnone
      apply SideOK_addLimit_same (by omega) hnone2 ?_ ?_
      · rw [hlistB false]
        have heq : (limList s1 false).map (priceOf sB.mem) = (limList s1 false).map (priceOf s1.mem) :=
          List.map_congr_left fun a ha => hpriceB_old a (hsell.2.2 a ha).1
        rw [heq]
        exact hsell.2.1
      · intro a ha
        rw [hlistB false] at ha
        obtain ⟨hb2, hm2⟩ := hsell.2.2 a ha
        rw [hmapB false, hpriceB_old a hb2]
        exact ⟨by omega, hm2⟩


theorem Inv_placeInsert {s1 : State} (b : Bool) (P : Rat) (oa : Nat)
    (hoa : oa < s1.mem.nextOrderA) (h : Inv s1) : Inv (placeInsert s1 b P oa) := by
  unfold placeInsert
  cases b with
  | true =>
    cases hm : alookup s1.ob.buyLimitsMap P with
    | none =>
      dsimp only []
      exact Inv_insert_new true P oa hoa hm h
    | some la =>
      exact ⟨MemBounds_addOrder hoa h.1,
        SideOK_addOrder la oa true h.2.1, SideOK_addOrder la oa false h.2.2⟩
  | false =>
    cases hm : alookup s1.ob.sellLimitsMap P with
    | none =>
      dsimp only []
      exact Inv_insert_new false P oa hoa hm h
    | some la =>
      exact ⟨MemBounds_addOrder hoa h.1,
        SideOK_addOrder la oa true h.2.1, SideOK_addOrder la oa false h.2.2⟩

theorem Inv_place (s : State) (b : Bool) (P q : Rat) (h : Inv s) :
    Inv (PlaceLimitOrder s b P q).2 := by
  rw [PlaceLimitOrder_eq]
  have h1 : Inv (newOrder s q).2 := Inv_newOrder s q h
  cases hmid : getMidPrice s with
  | error e => exact h1
  | ok mid =>
    dsimp only []
    by_cases hP : P ≤ 0
    · rw [if_pos hP]
      exact h1
    · rw [if_neg hP]
      by_cases hq : q ≤ 0
      · rw [if_pos hq]
        exact h1
      · rw [if_neg hq]
        by_cases hc1 : b ∧ mid < P
        · rw [if_pos hc1]
          exact h1
        · rw [if_neg hc1]
          by_cases hc2 : ¬b ∧ P < mid
          · rw [if_pos hc2]
            exact h1
          · rw [if_neg hc2]
            exact Inv_cleanupTop _
              (Inv_placeInsert b P (newOrder s q).1 (Nat.lt_succ_self _) h1)

theorem Inv_delScan (la id : Nat) : ∀ (fuel t : Nat) (s : State), Inv s →
    Inv (delScan s la id fuel t).2 := by
  intro fuel
  induction fuel with
  | zero => intro t s h; exact h
  | succ n ih =>
    intro t s h
    unfold delScan
    cases hto : getOrder s t with
    | none => exact h
    | some tnode =>
      dsimp only []
      cases hnx : tnode.next with
      | none => exact h
      | some nxt =>
        dsimp only []
        cases hno : getOrder s nxt with
        | none => exact h
        | some no =>
          dsimp only []
          by_cases hid : no.id = id
          · rw [if_pos hid]
            obtain ⟨hb, hbuy, hsell⟩ := h
            obtain ⟨ht1, ht2, _⟩ := hb.order hto
            have hnb : obnd no.next s.mem.nextOrderA := (hb.order hno).2.2
            cases hl : getLimit s la with
            | none =>
              dsimp only []
              have hb2 : MemBounds (setOrder s t { tnode with next := no.next }) :=
                MemBounds_setOrder ht1 ht2 hnb ⟨hb.1, hb.2⟩
              exact ⟨hb2,
                SideOK_congr true rfl rfl (fun a _ => rfl) (le_refl _) hbuy,
                SideOK_congr false rfl rfl (fun a _ => rfl) (le_refl _) hsell⟩
            | some l =>
              dsimp only []
              obtain ⟨hla1, hlf, hlr⟩ := hb.limit hl
              have hbL : MemBounds (setLimit s la { l with Volume := l.Volume - no.qty }) :=
                MemBounds_setLimit hla1 hlf hlr hb
              have hSideL : ∀ b2, SideOK s b2 →
                  SideOK (setLimit s la { l with Volume := l.Volume - no.qty }) b2 := by
                intro b2 hs
                exact @SideOK_congr s _ b2 rfl rfl
                  (fun a _ => priceOf_setLimit { l with Volume := l.Volume - no.qty } hl rfl a)
                  (le_refl _) hs
              set sL := setLimit s la { l with Volume := l.Volume - no.qty } with hsL
              have hb2 : MemBounds (setOrder sL t { tnode with next := no.next }) :=
                @MemBounds_setOrder sL t { tnode with next := no.next } ht1 ht2 hnb hbL
              exact ⟨hb2,
                SideOK_congr true rfl rfl (fun a _ => rfl) (le_refl _) (hSideL true hbuy),
                SideOK_congr false rfl rfl (fun a _ => rfl) (le_refl _) (hSideL false hsell)⟩
          · rw [if_neg hid]
            exact ih nxt s ⟨h.1, h.2.1, h.2.2⟩

theorem Inv_deleteOrder (s : State) (la : Option Nat) (id : Nat) (h : Inv s) :
    Inv (Limit.deleteOrder s la id).2 := by
  unfold Limit.deleteOrder
  cases la with
  | none => exact h
  | some la =>
    dsimp only []
    cases hl : getLimit s la with
    | none => exact h
    | some l =>
      dsimp only []
      cases hf : l.front with
      | none => exact h
      | some f =>
        dsimp only []
        cases hfo : getOrder s f with
        | none => exact h
        | some fo =>
          dsimp only []
          by_cases hid : fo.id = id
          · rw [if_pos hid]
            obtain ⟨hb, hbuy, hsell⟩ := h
            obtain ⟨hla1, hlf, hlr⟩ := hb.limit hl
            have hnb : obnd fo.next s.mem.nextOrderA := (hb.order hfo).2.2
            refine ⟨MemBounds_setLimit hla1 hnb hlr hb, ?_, ?_⟩
            · exact @SideOK_congr s _ true rfl rfl
                (fun a _ => priceOf_setLimit { l with Volume := l.Volume - fo.qty, front := fo.next }
                  hl rfl a) (le_refl _) hbuy
            · exact @SideOK_congr s _ false rfl rfl
                (fun a _ => priceOf_setLimit { l with Volume := l.Volume - fo.qty, front := fo.next }
                  hl rfl a) (le_refl _) hsell
          · rw [if_neg hid]
            exact Inv_delScan la id s.mem.nextOrderA f s h


theorem SideOK_of_Inv {s : State} (h : Inv s) (b : Bool) : SideOK s b := by
  cases b with
  | true => exact h.2.1
  | false => exact h.2.2

theorem cancelSweep_skip (b : Bool) (P : Rat) : ∀ (chunk : List Nat) (i : Nat) (s : State),
    (∀ a ∈ chunk, priceOf s.mem a ≠ P) → cancelSweep b P chunk i s = s := by
  intro chunk
  induction chunk with
  | nil => intro i s _; rfl
  | cons a rest ih =>
    intro i s h
    unfold cancelSweep
    rw [if_neg (h a (List.mem_cons_self a rest))]
    exact ih (i + 1) s fun x hx => h x (List.mem_cons_of_mem a hx)

theorem Inv_cancelSweep (b : Bool) (P : Rat) : ∀ (chunk pre : List Nat) (s : State),
    Inv s → pre ++ chunk = limList s b → 1 < (limList s b).length →
    Inv (cancelSweep b P chunk pre.length s) := by
  intro chunk
  induction chunk with
  | nil => intro pre s h _ _; exact h
  | cons a rest ih =>
    intro pre s h hdecomp hlen
    unfold cancelSweep
    by_cases hm : priceOf s.mem a = P
    · rw [if_pos hm]
      have hpos : pre.length < (limList s b).length := by
        rw [← hdecomp]
        simp
      have hget : (limList s b).get ⟨pre.length, hpos⟩ = a := by
        rw [List.get_of_eq hdecomp.symm]
        simp [List.getElem_append_right (le_refl pre.length)]
      have hInv2 : Inv (deleteLimit s b pre.length P) :=
        Inv_deleteLimit_at hpos (by rw [hget, hm]) hlen h
      have hrest : ∀ x ∈ rest, priceOf (deleteLimit s b pre.length P).mem x ≠ P := by
        intro x hx
        rw [deleteLimit_mem]
        have hnd : ((limList s b).map (priceOf s.mem)).Nodup := (SideOK_of_Inv h b).2.1
        rw [← hdecomp, List.map_append] at hnd
        have hsub : ((a :: rest).map (priceOf s.mem)).Nodup := (List.nodup_append.mp hnd).2.1
        rw [List.map_cons] at hsub
        have hnotin : priceOf s.mem a ∉ rest.map (priceOf s.mem) := (List.nodup_cons.mp hsub).1
        intro heq
        exact hnotin (by
          rw [hm, ← heq]
          exact List.mem_map.mpr ⟨x, hx, rfl⟩)
      rw [cancelSweep_skip b P rest (pre.length + 1) _ hrest]
      exact hInv2
    · rw [if_neg hm]
      have hlen1 : pre.length + 1 = (pre ++ [a]).length := by simp
      rw [hlen1]
      exact ih (pre ++ [a]) s h (by rw [← hdecomp]; simp) hlen

theorem Inv_cancel (s : State) (id : Nat) (P : Rat) (h : Inv s) :
    Inv (CancelLimitOrder s id P).2 := by
  unfold CancelLimitOrder
  cases hmid : getMidPrice s with
  | error e => exact h
  | ok mid =>
    dsimp only []
    by_cases hP : P < mid
    · rw [if_pos hP]
      cases hres : Limit.deleteOrder s (alookup s.ob.buyLimitsMap P) id with
      | mk r s1 =>
        have hInv1 : Inv s1 := by
          have hd := Inv_deleteOrder s (alookup s.ob.buyLimitsMap P) id h
          rw [hres] at hd
          exact hd
        cases r with
        | err e => exact hInv1
        | panicked => exact hInv1
        | ok =>
          dsimp only []
          by_cases hcond : canDeleteLimit s1 true ∧
              (alookup s1.ob.buyLimitsMap P).elim 0 (volOf s1.mem ·) = 0
          · rw [if_pos hcond]
            have hlen := (canDeleteLimit_iff s1 true).mp hcond.1
            have hcs := Inv_cancelSweep true P (limList s1 true) [] s1 hInv1 (by simp) hlen
            simpa using hcs
          · rw [if_neg hcond]
            exact hInv1
    · rw [if_neg hP]
      cases hres : Limit.deleteOrder s (alookup s.ob.sellLimitsMap P) id with
      | mk r s1 =>
        have hInv1 : Inv s1 := by
          have hd := Inv_deleteOrder s (alookup s.ob.sellLimitsMap P) id h
          rw [hres] at hd
          exact hd
        cases r with
        | err e => exact hInv1
        | panicked => exact hInv1
        | ok =>
          dsimp only []
          by_cases hcond : canDeleteLimit s1 false ∧
              (alookup s1.ob.sellLimitsMap P).elim 0 (volOf s1.mem ·) = 0
          · rw [if_pos hcond]
            have hlen := (canDeleteLimit_iff s1 false).mp hcond.1
            have hcs := Inv_cancelSweep false P (limList s1 false) [] s1 hInv1 (by simp) hlen
            simpa using hcs
          · rw [if_neg hcond]
            exact hInv1


theorem getTotalVolume_eq (s : State) (b : Bool) :
    getTotalVolume s b = ((limList s b).map (volOf s.mem)).sum := by
  cases b with
  | true => rfl
  | false => rfl

theorem Inv_marketWhole (side : Bool) : ∀ (fuel : Nat) (q : Rat) (s : State), Inv s →
    0 ≤ q → q < getTotalVolume s side →
    Inv (marketWhole side fuel q s).2 ∧
    0 ≤ (marketWhole side fuel q s).1 ∧
    (marketWhole side fuel q s).1 < getTotalVolume (marketWhole side fuel q s).2 side := by
  intro fuel
  induction fuel with
  | zero => intro q s h h0 hS; exact ⟨h, h0, hS⟩
  | succ n ih =>
    intro q s h h0 hS
    unfold marketWhole
    cases hl : limList s side with
    | nil => exact ⟨h, h0, hS⟩
    | cons l0 tl =>
      dsimp only []
      by_cases hv : volOf s.mem l0 ≤ q
      · rw [if_pos hv]
        have hSexp : getTotalVolume s side = volOf s.mem l0 + (tl.map (volOf s.mem)).sum := by
          rw [getTotalVolume_eq, hl]
          simp
        have htlne : tl ≠ [] := by
          intro hnil
          rw [hnil] at hSexp
          simp at hSexp
          rw [hSexp] at hS
          exact absurd (lt_of_le_of_lt hv hS) (lt_irrefl _)
        have hlen : 1 < (limList s side).length := by
          rw [hl]
          cases htl2 : tl with
          | nil => exact absurd htl2 htlne
          | cons x xs => simp
        set sP : State := { s with ob := { s.ob with Price := priceOf s.mem l0 } } with hsP
        have hInvP : Inv sP := Inv_setPrice s _ h
        have hlP : limList sP side = l0 :: tl := hl
        have hlenP : 1 < (limList sP side).length := hlen
        have hpos0 : 0 < (limList sP side).length := by omega
        have hInvD : Inv (deleteLimit sP side 0 (priceOf sP.mem l0)) :=
          Inv_deleteLimit_head hlP hlenP hInvP
        have hSD : getTotalVolume (deleteLimit sP side 0 (priceOf sP.mem l0)) side
            = (tl.map (volOf s.mem)).sum := by
          rw [getTotalVolume_eq, deleteLimit_list_same, deleteLimit_mem]
          have hperm : List.Perm (sortSide sP.mem side (removeAt (l0 :: tl) 0))
              ((l0 :: tl).eraseIdx 0) :=
            (sortSide_perm _ _ _).trans (removeAt_perm _ 0 (by simp))
          have hgoal : limList sP side = l0 :: tl := hlP
          rw [hgoal, (hperm.map (volOf sP.mem)).sum_eq]
          rfl
        refine (ih (q - volOf s.mem l0) (deleteLimit sP side 0 (priceOf sP.mem l0)) hInvD ?_ ?_)
        · linarith
        · rw [hSD]
          have : q < volOf s.mem l0 + (tl.map (volOf s.mem)).sum := by
            rw [← hSexp]; exact hS
          linarith
      · rw [if_neg hv]
        exact ⟨h, h0, hS⟩

theorem Inv_marketFront (side : Bool) : ∀ (fuel : Nat) (q : Rat) (s : State), Inv s →
    Inv (marketFront side fuel q s).2.2 := by
  intro fuel
  induction fuel with
  | zero => intro q s h; exact h
  | succ n ih =>
    intro q s h
    unfold marketFront
    cases hl : limList s side with
    | nil => exact h
    | cons l0 tl =>
      dsimp only []
      cases hgl : getLimit s l0 with
      | none => exact h
      | some l =>
        dsimp only []
        cases hf : l.front with
        | none => exact h
        | some f =>
          dsimp only []
          cases hfo : getOrder s f with
          | none => exact h
          | some fo =>
            dsimp only []
            by_cases hle : fo.qty ≤ q
            · rw [if_pos hle]
              apply ih
              obtain ⟨hb, hbuy, hsell⟩ := h
              set sP : State := { s with ob := { s.ob with Price := l.Price } } with hsP
              have hInvP : Inv sP := Inv_setPrice s _ ⟨hb, hbuy, hsell⟩
              obtain ⟨hla1, _, hlr⟩ := hb.limit hgl
              have hnb : obnd fo.next s.mem.nextOrderA := (hb.order hfo).2.2
              refine ⟨MemBounds_setLimit hla1 hnb hlr hInvP.1, ?_, ?_⟩
              · exact @SideOK_congr sP _ true rfl rfl
                  (fun a _ => priceOf_setLimit
                    { l with Volume := l.Volume - fo.qty, front := fo.next } hgl rfl a)
                  (le_refl _) hInvP.2.1
              · exact @SideOK_congr sP _ false rfl rfl
                  (fun a _ => priceOf_setLimit
                    { l with Volume := l.Volume - fo.qty, front := fo.next } hgl rfl a)
                  (le_refl _) hInvP.2.2
            · rw [if_neg hle]
              exact h

theorem Inv_marketLast (side : Bool) (q : Rat) (s : State) (h : Inv s) :
    Inv (marketLast side q s).2 := by
  unfold marketLast
  by_cases hq : q = 0
  · rw [if_pos hq]
    exact h
  · rw [if_neg hq]
    cases hl : limList s side with
    | nil => exact h
    | cons l0 tl =>
      dsimp only []
      cases hgl : getLimit s l0 with
      | none => exact h
      | some l =>
        dsimp only []
        cases hf : l.front with
        | none => exact h
        | some f =>
          dsimp only []
          cases hfo : getOrder s f with
          | none => exact h
          | some fo =>
            dsimp only []
            obtain ⟨hb, hbuy, hsell⟩ := h
            set sP : State := { s with ob := { s.ob with Price := l.Price } } with hsP
            have hInvP : Inv sP := Inv_setPrice s _ ⟨hb, hbuy, hsell⟩
            obtain ⟨hf1, hf2, hf3⟩ := hb.order hfo
            have hInvO : Inv (setOrder sP f { fo with qty := fo.qty - q }) := by
              refine ⟨@MemBounds_setOrder sP f { fo with qty := fo.qty - q } hf1 hf2 hf3
                hInvP.1, ?_, ?_⟩
              · exact @SideOK_congr sP _ true rfl rfl (fun a _ => rfl) (le_refl _) hInvP.2.1
              · exact @SideOK_congr sP _ false rfl rfl (fun a _ => rfl) (le_refl _) hInvP.2.2
            obtain ⟨hla1, _, hlr⟩ := hb.limit hgl
            set sO : State := setOrder sP f { fo with qty := fo.qty - q } with hsO
            have hglO : getLimit sO l0 = some l := hgl
            refine ⟨MemBounds_setLimit hla1 (by exact hf1) hlr hInvO.1, ?_, ?_⟩
            · exact @SideOK_congr sO _ true rfl rfl
                (fun a _ => priceOf_setLimit
                  { Price := l.Price, Volume := l.Volume - q, front := some f, rear := l.rear }
                  hglO rfl a)
                (le_refl _) hInvO.2.1
            · exact @SideOK_congr sO _ false rfl rfl
                (fun a _ => priceOf_setLimit
                  { Price := l.Price, Volume := l.Volume - q, front := some f, rear := l.rear }
                  hglO rfl a)
                (le_refl _) hInvO.2.2

theorem Inv_marketSweep (side : Bool) (q : Rat) (s : State) (h : Inv s)
    (h0 : 0 ≤ q) (hS : q < getTotalVolume s side) : Inv (marketSweep side q s).2 := by
  unfold marketSweep
  obtain ⟨hW, _, _⟩ := Inv_marketWhole side ((limList s side).length + 1) q s h h0 hS
  cases hw : marketWhole side ((limList s side).length + 1) q s with
  | mk q1 s1 =>
    rw [hw] at hW
    dsimp only []
    have hF := Inv_marketFront side (s1.mem.nextOrderA + 1) q1 s1 hW
    cases hf : marketFront side (s1.mem.nextOrderA + 1) q1 s1 with
    | mk r rest =>
      obtain ⟨q2, s2⟩ := rest
      rw [hf] at hF
      cases r with
      | panicked => exact hF
      | err e => exact hF
      | ok => exact Inv_marketLast side q2 s2 hF

theorem Inv_market (s : State) (b : Bool) (q : Rat) (h : Inv s) :
    Inv (PlaceMarketOrder s b q).2 := by
  unfold PlaceMarketOrder
  by_cases hq : q ≤ 0
  · rw [if_pos hq]
    exact h
  · rw [if_neg hq]
    cases b with
    | true =>
      by_cases hv : getTotalVolume s false ≤ q
      · rw [if_pos hv]
        exact h
      · rw [if_neg hv]
        exact Inv_marketSweep false q s h (le_of_lt (not_le.mp hq)) (not_le.mp hv)
    | false =>
      by_cases hv : getTotalVolume s true ≤ q
      · rw [if_pos hv]
        exact h
      · rw [if_neg hv]
        exact Inv_marketSweep true q s h (le_of_lt (not_le.mp hq)) (not_le.mp hv)


theorem Inv_fullInit (s : State) (m : Rat) (hB : MemBounds s) : Inv (fullInit s m) := by
  have hR : MemBounds (Reset s) := MemBounds_of_mem_eq rfl hB
  set sR := Reset s with hsR
  set la := sR.mem.nextLimitA with hla
  set sN := (newLimit sR m).2 with hsN
  set oa := sN.mem.nextOrderA with hoa
  set sO := (newOrder sN 0).2 with hsO
  set s3 := Limit.addOrder sO la oa with hs3
  have key : fullInit s m = addLimit (addLimit s3 true la) false la := rfl
  rw [key]
  have hN : MemBounds sN := MemBounds_newLimit sR m hR
  have hO : MemBounds sO := MemBounds_newOrder sN 0 hN
  have h3 : MemBounds s3 := MemBounds_addOrder (by exact Nat.lt_succ_self oa) hO
  have hlist3T : limList s3 true = [] := by
    unfold limList
    rw [hs3, addOrder_ob]
    rfl
  have hlist3F : limList s3 false = [] := by
    unfold limList
    rw [hs3, addOrder_ob]
    rfl
  have hmap3T : mapOf s3 true = [] := by
    unfold mapOf
    rw [hs3, addOrder_ob]
    rfl
  have hmap3F : mapOf s3 false = [] := by
    unfold mapOf
    rw [hs3, addOrder_ob]
    rfl
  have hcnt3 : s3.mem.nextLimitA = la + 1 := by
    rw [hs3, (addOrder_counters sO la oa).1]
    rfl
  have hS4T : SideOK (addLimit s3 true la) true := by
    apply SideOK_addLimit_same (by omega) (by rw [hmap3T]; rfl) (by rw [hlist3T]; simp)
    intro a ha
    rw [hlist3T] at ha
    simp at ha
  refine ⟨?_, ?_, ?_⟩
  · exact MemBounds_of_mem_eq (by rw [addLimit_mem, addLimit_mem]) h3
  · exact SideOK_addLimit_other (by simp) hS4T
  · apply SideOK_addLimit_same ?_ ?_ ?_ ?_
    · rw [addLimit_mem]
      omega
    · rw [addLimit_map_other s3 true false la (by simp), hmap3F]
      rfl
    · rw [addLimit_list_other s3 true false la (by simp), hlist3F]
      simp
    · intro a ha
      rw [addLimit_list_other s3 true false la (by simp), hlist3F] at ha
      simp at ha

theorem Inv_applyOp (s : State) (op : Op) (h : Inv s) : Inv (applyOp s op) := by
  cases op with
  | reinit m => exact Inv_fullInit s m h.1
  | limit b p q => exact Inv_place s b p q h
  | cancel id p => exact Inv_cancel s id p h
  | market b q => exact Inv_market s b q h

theorem Inv_runOps : ∀ (ops : List Op) (s : State), Inv s → Inv (runOps s ops) := by
  intro ops
  induction ops with
  | nil => intro s h; exact h
  | cons op rest ih =>
    intro s h
    exact ih (applyOp s op) (Inv_applyOp s op h)

/-- C8: after a successful Initialize (`fullInit` from any state with
well-formed heap bounds), every sequence of subsequent operations (limit
placements, cancellations, market orders and re-initializations, with
the state taken after each call even when it fails or panics) leaves
both the bid side and the ask side with at least one PriceLevel.  Since
the operation list is universally quantified, every intermediate state
(a prefix of the list) is covered as well; the snapshot reads
(`GetData`, `getMidPrice`, `getSpread`, `sideView`) are pure functions
of the state and mutate nothing. -/
theorem c8_sides_nonempty (s : State) (m : Rat) (hB : MemBounds s) (ops : List Op) :
    (runOps (fullInit s m) ops).ob.BuyLimits ≠ [] ∧
    (runOps (fullInit s m) ops).ob.SellLimits ≠ [] := by
  have h := Inv_runOps ops (fullInit s m) (Inv_fullInit s m hB)
  exact ⟨h.2.1.1, h.2.2.1⟩

/-- Witness for C8: a concrete operation sequence with successes,
failures and panicking calls, starting from the fresh book. -/
theorem c8_sides_nonempty_witness :
    MemBounds New ∧
    ((runOps (fullInit New 100) [Op.limit true 99 5, Op.cancel 1 99, Op.limit true 99 7,
        Op.market true 2, Op.cancel 7 50, Op.market false 3, Op.reinit 10,
        Op.limit false 11 4]).ob.BuyLimits ≠ [] ∧
     (runOps (fullInit New 100) [Op.limit true 99 5, Op.cancel 1 99, Op.limit true 99 7,
        Op.market true 2, Op.cancel 7 50, Op.market false 3, Op.reinit 10,
        Op.limit false 11 4]).ob.SellLimits ≠ []) :=
  ⟨by decide, c8_sides_nonempty New 100 (by decide)
    [Op.limit true 99 5, Op.cancel 1 99, Op.limit true 99 7, Op.market true 2,
     Op.cancel 7 50, Op.market false 3, Op.reinit 10, Op.limit false 11 4]⟩


/-- The orphan invariant behind C10: address `a` holds the only order
carrying `id`, and no stored reference (another order's `next`, or any
limit's `front` or `rear`) points at `a`, so no queue scan can ever
reach it. -/
def Orphan (s : State) (id a : Nat) : Prop :=
  a < s.mem.nextOrderA ∧ id < s.mem.nextId ∧
  (∃ o, getOrder s a = some o ∧ o.id = id) ∧
  (∀ a2 o, getOrder s a2 = some o → o.id = id → a2 = a) ∧
  (∀ a2 o, getOrder s a2 = some o → o.next ≠ some a) ∧
  (∀ la l, getLimit s la = some l → l.front ≠ some a ∧ l.rear ≠ some a)

/-- The combined invariant: heap bounds plus the orphan facts. -/
def OInv (s : State) (id a : Nat) : Prop := MemBounds s ∧ Orphan s id a

theorem alookup_append_cases {κ β : Type} [DecidableEq κ] {l : List (κ × β)} {k k2 : κ}
    {v v2 : β} (h : alookup (l ++ [(k, v)]) k2 = some v2) :
    alookup l k2 = some v2 ∨ (alookup l k2 = none ∧ k2 = k ∧ v2 = v) := by
  induction l with
  | nil =>
    simp [alookup] at h
    by_cases hk : k = k2
    · subst hk
      simp [alookup] at h ⊢
      simp [h]
    · simp [alookup, hk] at h
  | cons kv rest ih =>
    obtain ⟨k0, v0⟩ := kv
    by_cases hk : k0 = k2
    · simp [alookup, hk] at h ⊢
      simp [h]
    · simp [alookup, hk] at h ⊢
      exact ih h

theorem OInv_of_mem_eq {s s' : State} {id a : Nat} (h : s'.mem = s.mem) (ho : OInv s id a) :
    OInv s' id a := by
  obtain ⟨hb, h1, h2, h3, h4, h5, h6⟩ := ho
  refine ⟨MemBounds_of_mem_eq h hb, ?_, ?_, ?_, ?_, ?_, ?_⟩
  · rw [h]; exact h1
  · rw [h]; exact h2
  · unfold getOrder
    rw [h]
    exact h3
  · intro a2 o ha2
    unfold getOrder at ha2
    rw [h] at ha2
    exact h4 a2 o ha2
  · intro a2 o ha2
    unfold getOrder at ha2
    rw [h] at ha2
    exact h5 a2 o ha2
  · intro la l hla
    unfold getLimit at hla
    rw [h] at hla
    exact h6 la l hla

theorem Orphan_setOrder {s : State} {id a a2 : Nat} {o2 o' : Order}
    (ho2 : getOrder s a2 = some o2) (hid : o'.id = o2.id) (hnx : o'.next ≠ some a)
    (h : Orphan s id a) : Orphan (setOrder s a2 o') id a := by
  obtain ⟨h1, h2, ⟨o0, ho0, ho0id⟩, h4, h5, h6⟩ := h
  have glup : ∀ a3, getOrder (setOrder s a2 o') a3 =
      if a2 = a3 then some o' else getOrder s a3 := by
    intro a3
    by_cases hx : a2 = a3
    · subst hx
      simp [getOrder, setOrder, alookup_aupdate_self]
    · simp [getOrder, setOrder, alookup_aupdate_ne _ _ _ _ hx, hx]
  refine ⟨h1, h2, ?_, ?_, ?_, ?_⟩
  · by_cases hx : a2 = a
    · subst hx
      refine ⟨o', ?_, ?_⟩
      · rw [glup a2]
        simp
      · rw [ho2] at ho0
        rw [hid, (Option.some_inj.mp ho0), ho0id]
    · exact ⟨o0, by rw [glup a, if_neg hx]; exact ho0, ho0id⟩
  · intro a3 o3 ha3 hid3
    rw [glup a3] at ha3
    by_cases hx : a2 = a3
    · rw [if_pos hx] at ha3
      have : o' = o3 := Option.some_inj.mp ha3
      subst this
      subst hx
      exact h4 a2 o2 ho2 (by rw [← hid, hid3])
    · rw [if_neg hx] at ha3
      exact h4 a3 o3 ha3 hid3
  · intro a3 o3 ha3
    rw [glup a3] at ha3
    by_cases hx : a2 = a3
    · rw [if_pos hx] at ha3
      rw [← Option.some_inj.mp ha3]
      exact hnx
    · rw [if_neg hx] at ha3
      exact h5 a3 o3 ha3
  · intro la l hla
    exact h6 la l hla

theorem Orphan_setLimit {s : State} {id a la : Nat} {l' : Limit}
    (hf : l'.front ≠ some a) (hr : l'.rear ≠ some a)
    (h : Orphan s id a) : Orphan (setLimit s la l') id a := by
  obtain ⟨h1, h2, h3, h4, h5, h6⟩ := h
  refine ⟨h1, h2, h3, h4, h5, ?_⟩
  intro la2 l2 hla2
  unfold getLimit setLimit at hla2
  by_cases hx : la = la2
  · subst hx
    rw [show alookup (aupdate s.mem.limits la l') la = some l' from alookup_aupdate_self _ _ _]
      at hla2
    rw [← Option.some_inj.mp hla2]
    exact ⟨hf, hr⟩
  · rw [alookup_aupdate_ne _ _ _ _ hx] at hla2
    exact h6 la2 l2 hla2

theorem Orphan_newOrder {s : State} {id a : Nat} (q : Rat) (h : Orphan s id a) :
    Orphan (newOrder s q).2 id a := by
  obtain ⟨h1, h2, ⟨o0, ho0, ho0id⟩, h4, h5, h6⟩ := h
  refine ⟨Nat.lt_succ_of_lt h1, Nat.lt_succ_of_lt h2, ?_, ?_, ?_, ?_⟩
  · exact ⟨o0, alookup_append_some ho0, ho0id⟩
  · intro a3 o3 ha3 hid3
    rcases alookup_append_cases ha3 with hc | ⟨_, hk, hv⟩
    · exact h4 a3 o3 hc hid3
    · subst hv
      have hEq : s.mem.nextId = id := hid3
      omega
  · intro a3 o3 ha3
    rcases alookup_append_cases ha3 with hc | ⟨_, hk, hv⟩
    · exact h5 a3 o3 hc
    · subst hv
      simp
  · intro la l hla
    exact h6 la l hla

theorem Orphan_newLimit {s : State} {id a : Nat} (P : Rat) (h : Orphan s id a) :
    Orphan (newLimit s P).2 id a := by
  obtain ⟨h1, h2, h3, h4, h5, h6⟩ := h
  refine ⟨h1, h2, h3, h4, h5, ?_⟩
  intro la l hla
  unfold getLimit newLimit at hla
  rcases alookup_append_cases hla with hc | ⟨_, hk, hv⟩
  · exact h6 la l hc
  · subst hv
    simp

theorem Orphan_addOrder {s : State} {id a la oa : Nat} (hne : oa ≠ a)
    (h : Orphan s id a) : Orphan (Limit.addOrder s la oa) id a := by
  unfold Limit.addOrder
  cases hl : getLimit s la with
  | none => exact h
  | some l =>
    cases ho : getOrder s oa with
    | none => exact h
    | some o =>
      dsimp only []
      have hlf : l.front ≠ some a := (h.2.2.2.2.2 la l hl).1
      cases hr : l.rear with
      | some r =>
        dsimp only []
        cases hro : getOrder s r with
        | some ro =>
          apply Orphan_setLimit (by exact hlf) (by simp [hne])
          exact Orphan_setOrder hro rfl (by simp [hne]) h
        | none =>
          exact Orphan_setLimit (by exact hlf) (by simp [hne]) h
      | none =>
        exact Orphan_setLimit (by simp [hne]) (by simp [hne]) h


theorem cleanupTop_mem (s : State) : (cleanupTop s).mem = s.mem := by
  unfold cleanupTop
  split
  · rw [deleteLimit_mem]
  · split
    · rw [deleteLimit_mem]
    · rfl

theorem cancelSweep_mem (b : Bool) (P : Rat) :
    ∀ (chunk : List Nat) (i : Nat) (s : State), (cancelSweep b P chunk i s).mem = s.mem := by
  intro chunk
  induction chunk with
  | nil => intro i s; rfl
  | cons x rest ih =>
    intro i s
    unfold cancelSweep
    by_cases hx : priceOf s.mem x = P
    · rw [if_pos hx, ih, deleteLimit_mem]
    · rw [if_neg hx, ih]

theorem OInv_addOrder {s : State} {id a : Nat} (la oa : Nat)
    (hoa : oa < s.mem.nextOrderA) (hne : oa ≠ a) (h : OInv s id a) :
    OInv (Limit.addOrder s la oa) id a :=
  ⟨MemBounds_addOrder hoa h.1, Orphan_addOrder hne h.2⟩

theorem OInv_placeInsert {s1 : State} {id a : Nat} (b : Bool) (P : Rat) (oa : Nat)
    (hoa : oa < s1.mem.nextOrderA) (hne : oa ≠ a) (h : OInv s1 id a) :
    OInv (placeInsert s1 b P oa) id a := by
  unfold placeInsert
  cases b with
  | true =>
    cases hm : alookup s1.ob.buyLimitsMap P with
    | none =>
      dsimp only []
      apply OInv_of_mem_eq (addLimit_mem _ true _)
      exact OInv_addOrder _ oa hoa hne
        ⟨MemBounds_newLimit s1 P h.1, Orphan_newLimit P h.2⟩
    | some la => exact OInv_addOrder la oa hoa hne h
  | false =>
    cases hm : alookup s1.ob.sellLimitsMap P with
    | none =>
      dsimp only []
      apply OInv_of_mem_eq (addLimit_mem _ false _)
      exact OInv_addOrder _ oa hoa hne
        ⟨MemBounds_newLimit s1 P h.1, Orphan_newLimit P h.2⟩
    | some la => exact OInv_addOrder la oa hoa hne h

theorem OInv_place {s : State} {id a : Nat} (b : Bool) (P q : Rat) (h : OInv s id a) :
    OInv (PlaceLimitOrder s b P q).2 id a := by
  obtain ⟨hB, hOr⟩ := h
  have hid : id < s.mem.nextId := hOr.2.1
  have h1 : OInv (newOrder s q).2 id a :=
    ⟨MemBounds_newOrder s q hB, Orphan_newOrder q hOr⟩
  have hlook : getOrder (newOrder s q).2 s.mem.nextOrderA =
      some { id := s.mem.nextId, qty := q, timestamp := s.mem.clock, next := none } := by
    unfold getOrder newOrder
    simp only []
    rw [alookup_append_none _ (alookup_eq_none fun p hp => Nat.ne_of_lt (hB.1 p hp).1)]
    simp [alookup]
  have hne : s.mem.nextOrderA ≠ a := by
    intro heq
    obtain ⟨o0, ho0, ho0id⟩ := h1.2.2.2.1
    rw [← heq] at ho0
    rw [hlook] at ho0
    have hnode := Option.some_inj.mp ho0
    have : s.mem.nextId = id := by
      rw [← ho0id, ← hnode]
    omega
  rw [PlaceLimitOrder_eq]
  cases hmid : getMidPrice s with
  | error e => exact h1
  | ok mid =>
    dsimp only []
    by_cases hP : P ≤ 0
    · rw [if_pos hP]
      exact h1
    · rw [if_neg hP]
      by_cases hq : q ≤ 0
      · rw [if_pos hq]
        exact h1
      · rw [if_neg hq]
        by_cases hc1 : b ∧ mid < P
        · rw [if_pos hc1]
          exact h1
        · rw [if_neg hc1]
          by_cases hc2 : ¬b ∧ P < mid
          · rw [if_pos hc2]
            exact h1
          · rw [if_neg hc2]
            apply OInv_of_mem_eq (cleanupTop_mem _)
            exact OInv_placeInsert b P (newOrder s q).1 (Nat.lt_succ_self _) hne h1

theorem OInv_delScan {id a : Nat} (la idc : Nat) : ∀ (fuel t : Nat) (s : State), OInv s id a →
    OInv (delScan s la idc fuel t).2 id a := by
  intro fuel
  induction fuel with
  | zero => intro t s h; exact h
  | succ n ih =>
    intro t s h
    unfold delScan
    cases hto : getOrder s t with
    | none => exact h
    | some tnode =>
      dsimp only []
      cases hnx : tnode.next with
      | none => exact h
      | some nxt =>
        dsimp only []
        cases hno : getOrder s nxt with
        | none => exact h
        | some no =>
          dsimp only []
          by_cases hid : no.id = idc
          · rw [if_pos hid]
            obtain ⟨hb, hOr⟩ := h
            obtain ⟨ht1, ht2, _⟩ := hb.order hto
            have hnonext : no.next ≠ some a := hOr.2.2.2.2.1 nxt no hno
            have htonext : tnode.next ≠ some a := hOr.2.2.2.2.1 t tnode hto
            cases hl : getLimit s la with
            | none =>
              dsimp only []
              exact ⟨MemBounds_setOrder ht1 ht2 ((hb.order hno).2.2) hb,
                Orphan_setOrder hto rfl (by exact hnonext) hOr⟩
            | some l =>
              dsimp only []
              obtain ⟨hla1, hlf, hlr⟩ := hb.limit hl
              have hl6 := hOr.2.2.2.2.2 la l hl
              have hbL : MemBounds (setLimit s la { l with Volume := l.Volume - no.qty }) :=
                MemBounds_setLimit hla1 hlf hlr hb
              have hOrL : Orphan (setLimit s la { l with Volume := l.Volume - no.qty }) id a :=
                Orphan_setLimit (by exact hl6.1) (by exact hl6.2) hOr
              set sL := setLimit s la { l with Volume := l.Volume - no.qty } with hsL
              have hto2 : getOrder sL t = some tnode := hto
              exact ⟨@MemBounds_setOrder sL t { tnode with next := no.next } ht1 ht2
                  ((hb.order hno).2.2) hbL,
                Orphan_setOrder hto2 rfl (by exact hnonext) hOrL⟩
          · rw [if_neg hid]
            exact ih nxt s h

theorem OInv_deleteOrder {id a : Nat} (s : State) (la : Option Nat) (idc : Nat)
    (h : OInv s id a) : OInv (Limit.deleteOrder s la idc).2 id a := by
  unfold Limit.deleteOrder
  cases la with
  | none => exact h
  | some la =>
    dsimp only []
    cases hl : getLimit s la with
    | none => exact h
    | some l =>
      dsimp only []
      cases hf : l.front with
      | none => exact h
      | some f =>
        dsimp only []
        cases hfo : getOrder s f with
        | none => exact h
        | some fo =>
          dsimp only []
          by_cases hid : fo.id = idc
          · rw [if_pos hid]
            obtain ⟨hb, hOr⟩ := h
            obtain ⟨hla1, _, hlr⟩ := hb.limit hl
            have hfonext : fo.next ≠ some a := hOr.2.2.2.2.1 f fo hfo
            have hl6 := hOr.2.2.2.2.2 la l hl
            exact ⟨MemBounds_setLimit hla1 ((hb.order hfo).2.2) hlr hb,
              Orphan_setLimit (by exact hfonext) (by exact hl6.2) hOr⟩
          · rw [if_neg hid]
            exact OInv_delScan la idc s.mem.nextOrderA f s h

theorem OInv_cancel {id a : Nat} (s : State) (idc : Nat) (P : Rat) (h : OInv s id a) :
    OInv (CancelLimitOrder s idc P).2 id a := by
  unfold CancelLimitOrder
  cases hmid : getMidPrice s with
  | error e => exact h
  | ok mid =>
    dsimp only []
    by_cases hP : P < mid
    · rw [if_pos hP]
      cases hres : Limit.deleteOrder s (alookup s.ob.buyLimitsMap P) idc with
      | mk r s1 =>
        have hInv1 : OInv s1 id a := by
          have hd := OInv_deleteOrder s (alookup s.ob.buyLimitsMap P) idc h
          rw [hres] at hd
          exact hd
        cases r with
        | err e => exact hInv1
        | panicked => exact hInv1
        | ok =>
          dsimp only []
          split
          · exact OInv_of_mem_eq (cancelSweep_mem true P _ 0 s1) hInv1
          · exact hInv1
    · rw [if_neg hP]
      cases hres : Limit.deleteOrder s (alookup s.ob.sellLimitsMap P) idc with
      | mk r s1 =>
        have hInv1 : OInv s1 id a := by
          have hd := OInv_deleteOrder s (alookup s.ob.sellLimitsMap P) idc h
          rw [hres] at hd
          exact hd
        cases r with
        | err e => exact hInv1
        | panicked => exact hInv1
        | ok =>
          dsimp only []
          split
          · exact OInv_of_mem_eq (cancelSweep_mem false P _ 0 s1) hInv1
          · exact hInv1


theorem marketWhole_mem (side : Bool) : ∀ (fuel : Nat) (q : Rat) (s : State),
    (marketWhole side fuel q s).2.mem = s.mem := by
  intro fuel
  induction fuel with
  | zero => intro q s; rfl
  | succ n ih =>
    intro q s
    unfold marketWhole
    cases hl : limList s side with
    | nil => rfl
    | cons l0 tl =>
      dsimp only []
      by_cases hv : volOf s.mem l0 ≤ q
      · rw [if_pos hv, ih, deleteLimit_mem]
      · rw [if_neg hv]

theorem OInv_marketFront {id a : Nat} (side : Bool) : ∀ (fuel : Nat) (q : Rat) (s : State),
    OInv s id a → OInv (marketFront side fuel q s).2.2 id a := by
  intro fuel
  induction fuel with
  | zero => intro q s h; exact h
  | succ n ih =>
    intro q s h
    unfold marketFront
    cases hl : limList s side with
    | nil => exact h
    | cons l0 tl =>
      dsimp only []
      cases hgl : getLimit s l0 with
      | none => exact h
      | some l =>
        dsimp only []
        cases hf : l.front with
        | none => exact h
        | some f =>
          dsimp only []
          cases hfo : getOrder s f with
          | none => exact h
          | some fo =>
            dsimp only []
            by_cases hle : fo.qty ≤ q
            · rw [if_pos hle]
              apply ih
              obtain ⟨hb, hOr⟩ := h
              have hP : OInv { s with ob := { s.ob with Price := l.Price } } id a :=
                OInv_of_mem_eq rfl ⟨hb, hOr⟩
              obtain ⟨hla1, _, hlr⟩ := hb.limit hgl
              have hfonext : fo.next ≠ some a := hOr.2.2.2.2.1 f fo hfo
              have hl6 := hOr.2.2.2.2.2 l0 l hgl
              exact ⟨MemBounds_setLimit hla1 ((hb.order hfo).2.2) hlr hP.1,
                Orphan_setLimit (by exact hfonext) (by exact hl6.2) hP.2⟩
            · rw [if_neg hle]
              exact h

theorem OInv_marketLast {id a : Nat} (side : Bool) (q : Rat) (s : State) (h : OInv s id a) :
    OInv (marketLast side q s).2 id a := by
  unfold marketLast
  by_cases hq : q = 0
  · rw [if_pos hq]
    exact h
  · rw [if_neg hq]
    cases hl : limList s side with
    | nil => exact h
    | cons l0 tl =>
      dsimp only []
      cases hgl : getLimit s l0 with
      | none => exact h
      | some l =>
        dsimp only []
        cases hf : l.front with
        | none => exact h
        | some f =>
          dsimp only []
          cases hfo : getOrder s f with
          | none => exact h
          | some fo =>
            dsimp only []
            obtain ⟨hb, hOr⟩ := h
            have hP : OInv { s with ob := { s.ob with Price := l.Price } } id a :=
              OInv_of_mem_eq rfl ⟨hb, hOr⟩
            obtain ⟨hf1, hf2, hf3⟩ := hb.order hfo
            have hO : OInv (setOrder { s with ob := { s.ob with Price := l.Price } } f
                { fo with qty := fo.qty - q }) id a := by
              refine ⟨@MemBounds_setOrder _ f { fo with qty := fo.qty - q } hf1 hf2 hf3 hP.1, ?_⟩
              exact Orphan_setOrder (show getOrder _ f = some fo from hfo) rfl
                (by exact hP.2.2.2.2.2.1 f fo hfo) hP.2
            obtain ⟨hla1, hlf, hlr⟩ := hb.limit hgl
            have hl6 := hOr.2.2.2.2.2 l0 l hgl
            have hffront : (some f : Option Nat) ≠ some a := by
              rw [← hf]
              exact hl6.1
            refine ⟨MemBounds_setLimit hla1 (by exact hf1) hlr hO.1, ?_⟩
            exact Orphan_setLimit (by exact hffront) (by exact hl6.2) hO.2

theorem OInv_market {id a : Nat} (s : State) (b : Bool) (q : Rat) (h : OInv s id a) :
    OInv (PlaceMarketOrder s b q).2 id a := by
  have hsweep : ∀ (side : Bool) (s2 : State), OInv s2 id a →
      OInv (marketSweep side q s2).2 id a := by
    intro side s2 h2
    unfold marketSweep
    cases hw : marketWhole side ((limList s2 side).length + 1) q s2 with
    | mk q1 s1 =>
      have hmem : s1.mem = s2.mem := by
        have := marketWhole_mem side ((limList s2 side).length + 1) q s2
        rw [hw] at this
        exact this
      have h1 : OInv s1 id a := OInv_of_mem_eq hmem h2
      dsimp only []
      have hF := OInv_marketFront side (s1.mem.nextOrderA + 1) q1 s1 h1
      cases hf : marketFront side (s1.mem.nextOrderA + 1) q1 s1 with
      | mk r rest =>
        obtain ⟨q2, s2b⟩ := rest
        rw [hf] at hF
        cases r with
        | panicked => exact hF
        | err e => exact hF
        | ok => exact OInv_marketLast side q2 s2b hF
  unfold PlaceMarketOrder
  by_cases hq : q ≤ 0
  · rw [if_pos hq]
    exact h
  · rw [if_neg hq]
    cases b with
    | true =>
      by_cases hv : getTotalVolume s false ≤ q
      · rw [if_pos hv]
        exact h
      · rw [if_neg hv]
        exact hsweep false s h
    | false =>
      by_cases hv : getTotalVolume s true ≤ q
      · rw [if_pos hv]
        exact h
      · rw [if_neg hv]
        exact hsweep true s h

theorem OInv_fullInit {id a : Nat} (s : State) (m : Rat) (h : OInv s id a) :
    OInv (fullInit s m) id a := by
  obtain ⟨hB, hOr⟩ := h
  have hid : id < s.mem.nextId := hOr.2.1
  have hR : OInv (Reset s) id a := OInv_of_mem_eq rfl ⟨hB, hOr⟩
  set sR := Reset s with hsR
  have hN : OInv (newLimit sR m).2 id a :=
    ⟨MemBounds_newLimit sR m hR.1, Orphan_newLimit m hR.2⟩
  set sN := (newLimit sR m).2 with hsN
  have hO : OInv (newOrder sN 0).2 id a :=
    ⟨MemBounds_newOrder sN 0 hN.1, Orphan_newOrder 0 hN.2⟩
  have hlook : getOrder (newOrder sN 0).2 sN.mem.nextOrderA =
      some { id := sN.mem.nextId, qty := 0, timestamp := sN.mem.clock, next := none } := by
    unfold getOrder newOrder
    simp only []
    rw [alookup_append_none _ (alookup_eq_none fun p hp => Nat.ne_of_lt (hN.1.1 p hp).1)]
    simp [alookup]
  set sO := (newOrder sN 0).2 with hsO
  have hne : sN.mem.nextOrderA ≠ a := by
    intro heq
    obtain ⟨o0, ho0, ho0id⟩ := hO.2.2.2.1
    rw [← heq] at ho0
    rw [hlook] at ho0
    have hnode := Option.some_inj.mp ho0
    have hidN : id < sN.mem.nextId := hN.2.2.1
    have : sN.mem.nextId = id := by
      rw [← ho0id, ← hnode]
    omega
  have key : fullInit s m =
      addLimit (addLimit (Limit.addOrder sO sR.mem.nextLimitA sN.mem.nextOrderA) true
        sR.mem.nextLimitA) false sR.mem.nextLimitA := rfl
  rw [key]
  apply OInv_of_mem_eq (addLimit_mem _ false _)
  apply OInv_of_mem_eq (addLimit_mem _ true _)
  exact OInv_addOrder _ _ (Nat.lt_succ_self _) hne hO

theorem OInv_applyOp {id a : Nat} (s : State) (op : Op) (h : OInv s id a) :
    OInv (applyOp s op) id a := by
  cases op with
  | reinit m => exact OInv_fullInit s m h
  | limit b p q => exact OInv_place b p q h
  | cancel idc p => exact OInv_cancel s idc p h
  | market b q => exact OInv_market s b q h

theorem OInv_runOps {id a : Nat} : ∀ (ops : List Op) (s : State), OInv s id a →
    OInv (runOps s ops) id a := by
  intro ops
  induction ops with
  | nil => intro s h; exact h
  | cons op rest ih =>
    intro s h
    exact ih (applyOp s op) (OInv_applyOp s op h)


theorem Orphan_delScan_not_ok {s : State} {id a : Nat} (la : Nat) (h : Orphan s id a) :
    ∀ (fuel t : Nat), (delScan s la id fuel t).1 ≠ Res.ok := by
  intro fuel
  induction fuel with
  | zero => intro t; simp [delScan]
  | succ n ih =>
    intro t
    unfold delScan
    cases hto : getOrder s t with
    | none => simp
    | some tnode =>
      dsimp only []
      cases hnx : tnode.next with
      | none => simp
      | some nxt =>
        dsimp only []
        cases hno : getOrder s nxt with
        | none => simp
        | some no =>
          dsimp only []
          by_cases hid : no.id = id
          · exfalso
            have hnxa : nxt = a := h.2.2.2.1 nxt no hno hid
            have := h.2.2.2.2.1 t tnode hto
            rw [hnx, hnxa] at this
            exact this rfl
          · rw [if_neg hid]
            exact ih nxt

theorem Orphan_deleteOrder_not_ok {s : State} {id a : Nat} (la : Option Nat)
    (h : Orphan s id a) : (Limit.deleteOrder s la id).1 ≠ Res.ok := by
  unfold Limit.deleteOrder
  cases la with
  | none => simp
  | some la =>
    dsimp only []
    cases hl : getLimit s la with
    | none => simp
    | some l =>
      dsimp only []
      cases hf : l.front with
      | none => simp
      | some f =>
        dsimp only []
        cases hfo : getOrder s f with
        | none => simp
        | some fo =>
          dsimp only []
          by_cases hid : fo.id = id
          · exfalso
            have hfa : f = a := h.2.2.2.1 f fo hfo hid
            have := (h.2.2.2.2.2 la l hl).1
            rw [hf, hfa] at this
            exact this rfl
          · rw [if_neg hid]
            exact Orphan_delScan_not_ok la h _ f

theorem Orphan_cancel_not_ok {s : State} {id a : Nat} (h : Orphan s id a) (P : Rat) :
    (CancelLimitOrder s id P).1 ≠ Res.ok := by
  unfold CancelLimitOrder
  cases hmid : getMidPrice s with
  | error e => simp
  | ok mid =>
    dsimp only []
    by_cases hP : P < mid
    · rw [if_pos hP]
      cases hres : Limit.deleteOrder s (alookup s.ob.buyLimitsMap P) id with
      | mk r s1 =>
        have hnot := Orphan_deleteOrder_not_ok (alookup s.ob.buyLimitsMap P) h
        rw [hres] at hnot
        cases r with
        | ok => exact absurd rfl hnot
        | err e => simp
        | panicked => simp
    · rw [if_neg hP]
      cases hres : Limit.deleteOrder s (alookup s.ob.sellLimitsMap P) id with
      | mk r s1 =>
        have hnot := Orphan_deleteOrder_not_ok (alookup s.ob.sellLimitsMap P) h
        rw [hres] at hnot
        cases r with
        | ok => exact absurd rfl hnot
        | err e => simp
        | panicked => simp

/-- C10: for every state with well-formed heap bounds and every input,
a `PlaceLimitOrder` call that fails with an error has already generated
a fresh identifier, different from the id of every order allocated so
far, and returns it; the book is untouched (sides, maps, every limit,
and every existing order are unchanged; the only effect is the
allocation of the never-inserted order).  The returned identifier is
never cancellable: after ANY further sequence of operations, a
`CancelLimitOrder` with that identifier (at any price) never returns a
nil error. -/
theorem c10_failed_place (s : State) (b : Bool) (P q : Rat) (hB : MemBounds s)
    (id : Nat) (e : Err) (s' : State)
    (h : PlaceLimitOrder s b P q = ((id, some e), s')) :
    (∀ a2 o, getOrder s a2 = some o → o.id ≠ id) ∧
    s'.ob = s.ob ∧
    s'.mem.limits = s.mem.limits ∧
    (∀ a2 o, getOrder s a2 = some o → getOrder s' a2 = some o) ∧
    (∀ ops P2, (CancelLimitOrder (runOps s' ops) id P2).1 ≠ Res.ok) := by
  rw [PlaceLimitOrder_eq] at h
  have hkey : id = s.mem.nextId ∧ s' = (newOrder s q).2 := by
    split at h
    · rw [Prod.ext_iff, Prod.ext_iff] at h
      exact ⟨h.1.1.symm, h.2.symm⟩
    · split at h
      · rw [Prod.ext_iff, Prod.ext_iff] at h
        exact ⟨h.1.1.symm, h.2.symm⟩
      · split at h
        · rw [Prod.ext_iff, Prod.ext_iff] at h
          exact ⟨h.1.1.symm, h.2.symm⟩
        · split at h
          · rw [Prod.ext_iff, Prod.ext_iff] at h
            exact ⟨h.1.1.symm, h.2.symm⟩
          · split at h
            · rw [Prod.ext_iff, Prod.ext_iff] at h
              exact ⟨h.1.1.symm, h.2.symm⟩
            · rw [Prod.ext_iff, Prod.ext_iff] at h
              exact absurd h.1.2 (by simp)
  obtain ⟨hid, hs'⟩ := hkey
  subst hid
  subst hs'
  have hfresh : ∀ a2 o, getOrder s a2 = some o → o.id ≠ s.mem.nextId := by
    intro a2 o ho
    exact Nat.ne_of_lt (hB.1 _ (alookup_mem ho)).2.1
  refine ⟨hfresh, rfl, rfl, fun a2 o ho => alookup_append_some ho, ?_⟩
  intro ops P2
  have hO : OInv (newOrder s q).2 s.mem.nextId s.mem.nextOrderA := by
    refine ⟨MemBounds_newOrder s q hB, ?_, ?_, ?_, ?_, ?_, ?_⟩
    · exact Nat.lt_succ_self _
    · exact Nat.lt_succ_self _
    · refine ⟨{ id := s.mem.nextId, qty := q, timestamp := s.mem.clock, next := none }, ?_, rfl⟩
      unfold getOrder newOrder
      simp only []
      rw [alookup_append_none _ (alookup_eq_none fun p hp => Nat.ne_of_lt (hB.1 p hp).1)]
      simp [alookup]
    · intro a3 o3 ha3 hid3
      rcases alookup_append_cases ha3 with hc | ⟨_, hk, hv⟩
      · exact absurd hid3 (hfresh a3 o3 hc)
      · exact hk
    · intro a3 o3 ha3
      rcases alookup_append_cases ha3 with hc | ⟨_, hk, hv⟩
      · intro hnx
        have := (hB.1 _ (alookup_mem hc)).2.2
        have hlt := obnd_some this hnx
        omega
      · subst hv
        simp
    · intro la l hla
      have hmem := hB.2 _ (alookup_mem hla)
      constructor
      · intro hfr
        have := obnd_some hmem.2.1 hfr
        omega
      · intro hrr
        have := obnd_some hmem.2.2 hrr
        omega
  exact Orphan_cancel_not_ok (OInv_runOps ops _ hO).2 P2

/-- Witness for C10: a crossing buy at 101 against mid-price 100 fails,
and the returned id 1 can never be cancelled, also after further
operations. -/
theorem c10_failed_place_witness :
    (MemBounds scnA0 ∧
     PlaceLimitOrder scnA0 true 101 5 = ((1, some Err.crossesBuy), (newOrder scnA0 5).2)) ∧
    ((∀ a2 o, getOrder scnA0 a2 = some o → o.id ≠ 1) ∧
     (newOrder scnA0 5).2.ob = scnA0.ob ∧
     (newOrder scnA0 5).2.mem.limits = scnA0.mem.limits ∧
     (∀ a2 o, getOrder scnA0 a2 = some o → getOrder (newOrder scnA0 5).2 a2 = some o) ∧
     (∀ ops P2, (CancelLimitOrder (runOps (newOrder scnA0 5).2 ops) 1 P2).1 ≠ Res.ok)) :=
  ⟨⟨by decide, by decide⟩,
   c10_failed_place scnA0 true 101 5 (by decide) 1 Err.crossesBuy (newOrder scnA0 5).2
     (by decide)⟩

end OB
